import Mathlib

/-!
Verification development for the cargo-patch tool (src/main.rs).

The development shallowly embeds the core of the program:

1. a model of TOML values and the manifest rewriter (the inner
   change_path function and the loop over the three dependency tables,
   src/main.rs lines 168-206);
2. the substitution-propagation walk (the main loop, lines 104-218),
   modelled as a step function on an explicit state consisting of the
   memoization cache, the stack of frames, and the filesystem;
3. the parsing of the repeatable --replace flag (lines 62-76).

Machine integers play no role; package identities are modelled as Nat,
strings as Lean String.  The external collaborators (cargo resolver,
recursive directory copy) are abstracted: an environment provides the
package set, names, dependency lists and source manifests, and the
filesystem is a map from working-directory entry names to manifest
documents plus the root manifest.  Only the manifest file of a copied
package is tracked, since it is the only file the tool ever modifies;
presence of the key models existence of the directory
cargo-patch/name.  HashMap and BTreeMap are modelled as association
lists whose operations agree with map semantics at lookup level; the
iteration order of the replaces HashMap (line 172), which is
unspecified in the source, is fixed to list order (operations for
distinct keys commute, so this is the only determinization).
-/

/-- Model of toml::Value as far as the program observes it: a scalar
string, a table, or any other shape (integer, float, array, ...),
which the rewriter treats uniformly as invalid (line 196). -/
inductive TomlVal where
  | str (s : String)
  | table (t : List (String × TomlVal))
  | other (n : Nat)

mutual

/-- Decidable equality for the nested TomlVal inductive. -/
def TomlVal.decEq : (a b : TomlVal) → Decidable (a = b)
  | .str a, .str b =>
    if h : a = b then isTrue (congrArg TomlVal.str h)
    else isFalse (fun he => h (TomlVal.str.inj he))
  | .str _, .table _ => isFalse (fun h => TomlVal.noConfusion h)
  | .str _, .other _ => isFalse (fun h => TomlVal.noConfusion h)
  | .table _, .str _ => isFalse (fun h => TomlVal.noConfusion h)
  | .table a, .table b =>
    match TomlVal.decEqEntries a b with
    | isTrue h => isTrue (congrArg TomlVal.table h)
    | isFalse h => isFalse (fun he => h (TomlVal.table.inj he))
  | .table _, .other _ => isFalse (fun h => TomlVal.noConfusion h)
  | .other _, .str _ => isFalse (fun h => TomlVal.noConfusion h)
  | .other _, .table _ => isFalse (fun h => TomlVal.noConfusion h)
  | .other a, .other b =>
    if h : a = b then isTrue (congrArg TomlVal.other h)
    else isFalse (fun he => h (TomlVal.other.inj he))

/-- Decidable equality for lists of table entries. -/
def TomlVal.decEqEntries : (a b : List (String × TomlVal)) → Decidable (a = b)
  | [], [] => isTrue rfl
  | [], _ :: _ => isFalse (fun h => List.noConfusion h)
  | _ :: _, [] => isFalse (fun h => List.noConfusion h)
  | (k, v) :: r, (k', v') :: r' =>
    if hk : k = k' then
      match TomlVal.decEq v v' with
      | isTrue hv =>
        match TomlVal.decEqEntries r r' with
        | isTrue hr => isTrue (by rw [hk, hv, hr])
        | isFalse hr => isFalse (by intro he; injection he with h1 h2; exact hr h2)
      | isFalse hv => isFalse (by
          intro he; injection he with h1 h2
          exact hv (congrArg Prod.snd h1))
    else isFalse (by
      intro he; injection he with h1 h2
      exact hk (congrArg Prod.fst h1))

end

instance : DecidableEq TomlVal := TomlVal.decEq

/-- Lookup in an association list, first binding wins; models
BTreeMap/Table get by key. -/
def alookup {α : Type} (k : String) : List (String × α) → Option α
  | [] => none
  | (k', v) :: rest => if k' = k then some v else alookup k rest

/-- In-place update of every binding of a key, models get_mut followed
by assignment through the mutable reference (positions preserved). -/
def aset {α : Type} (k : String) (v : α) (m : List (String × α)) : List (String × α) :=
  m.map (fun p => if p.1 = k then (k, v) else p)

/-- Removal of all bindings of a key; models BTreeMap::remove at
lookup level (line 176). -/
def aremove {α : Type} (k : String) (m : List (String × α)) : List (String × α) :=
  m.filter (fun p => p.1 != k)

/-- Insert with overwrite; models HashMap::insert at lookup level
(the new binding is placed at the end). -/
def ainsert {α : Type} (k : String) (v : α) (m : List (String × α)) : List (String × α) :=
  aremove k m ++ [(k, v)]

/-- Model of the PackagePath enum (lines 21-24): a git URL from a user
rule, or a filesystem path into the working directory. -/
inductive PackagePath where
  | git (url : String)
  | path (p : String)
deriving DecidableEq

/-- The key-value pair inserted by change_path for a replacement
(lines 178-187). -/
def encKV : PackagePath → (String × TomlVal)
  | .path p => ("path", TomlVal.str p)
  | .git url => ("git", TomlVal.str url)

/-- The inner change_path function (lines 174-188): remove the keys
version, path, git unconditionally, then insert exactly one of
path or git according to the replacement. -/
def change_path (map : List (String × TomlVal)) (value : PackagePath) : List (String × TomlVal) :=
  aremove "git" (aremove "path" (aremove "version" map)) ++ [encKV value]

/-- The three sequential removes of change_path, as one function on
tables (used pervasively in proofs). -/
def filt3 (t : List (String × TomlVal)) : List (String × TomlVal) :=
  aremove "git" (aremove "path" (aremove "version" t))

/-- The sibling entries of a dependency entry: the contents for a
table, nothing for a scalar (line 192 starts from an empty map). -/
def sib : TomlVal → List (String × TomlVal)
  | .table t => t
  | _ => []

/-- The match on the dependency entry shape (lines 189-201): a table
is rewritten in place, a string is replaced by a fresh table built by
change_path from empty, and any other shape aborts the whole rewrite
(diagnostic and early Ok return, line 199). -/
def normalizeDep (dep : TomlVal) (value : PackagePath) : Option TomlVal :=
  match dep with
  | .table inner => some (.table (change_path inner value))
  | .str _ => some (.table (change_path [] value))
  | .other _ => none

/-- The loop for (key, value) in replaces (lines 172-203) over one
dependency table: each named entry that exists is normalized; a bad
shape aborts. -/
def applyReplaces (t : List (String × TomlVal)) :
    List (String × PackagePath) → Option (List (String × TomlVal))
  | [] => some t
  | (key, value) :: rest =>
    match alookup key t with
    | none => applyReplaces t rest
    | some dep =>
      match normalizeDep dep value with
      | none => none
      | some dep' => applyReplaces (aset key dep' t) rest

/-- Processing of one top-level dependency table value: get_mut with a
string key finds entries only when the value is a table; any other
shape is left untouched (line 173 finds nothing). -/
def rewriteDeps (deps : TomlVal) (replaces : List (String × PackagePath)) : Option TomlVal :=
  match deps with
  | .table t => (applyReplaces t replaces).map .table
  | v => some v

/-- The three recognized dependency tables, in source order
(line 170). -/
def depTables : List String := ["dependencies", "dev-dependencies", "build-dependencies"]

/-- One iteration of the outer table loop (lines 170-205): if the
top-level key is present its value is rewritten and stored back. -/
def processTable (tn : String) (replaces : List (String × PackagePath))
    (top : List (String × TomlVal)) : Option (List (String × TomlVal)) :=
  match alookup tn top with
  | none => some top
  | some deps =>
    match rewriteDeps deps replaces with
    | none => none
    | some d => some (aset tn d top)

/-- The outer loop over a list of table names. -/
def rewriteTables (replaces : List (String × PackagePath)) :
    List String → List (String × TomlVal) → Option (List (String × TomlVal))
  | [], top => some top
  | tn :: rest, top =>
    match processTable tn replaces top with
    | none => none
    | some top' => rewriteTables replaces rest top'

/-- The whole manifest rewrite (lines 168-206) on a parsed document:
parsed.get_mut(table) finds the three tables only when the document is
a table; the document is then re-serialized (modelled as identity on
the structured value).  A none result models the diagnostic plus early
Ok return at line 199: the file is not written. -/
def rewriteDoc (doc : TomlVal) (replaces : List (String × PackagePath)) : Option TomlVal :=
  match doc with
  | .table top => (rewriteTables replaces depTables top).map .table
  | v => some v

/-- A resolved package as the walk observes it (cargo::core::Package):
its short name and the manifest at its source root.  The rest of the
source tree is never read by the tool, only copied verbatim, so the
manifest is the only content that needs to be modelled. -/
structure Pkg where
  name : String
  manifest : TomlVal

/-- The environment provided by the external resolver (ops::resolve_ws,
line 84): the package set indexed by identity, the dependency
function, the user rule map built from --replace, and the identity of
the workspace current package. -/
structure Env where
  pkgs : Nat → Pkg
  depsOf : Nat → List Nat
  replace : List (String × String)
  rootId : Nat

/-- A stack entry (lines 25-31): the package being visited, the not yet
consumed suffix of its direct dependency identities (the iterator),
and the lazily created induced-substitutions map. -/
structure Frame where
  pkg : Nat
  deps : List Nat
  updated : Option (List (String × PackagePath))
deriving DecidableEq

/-- The filesystem as the tool observes it: for each name, the manifest
of the working-directory copy cargo-patch/name (presence of the
binding models existence of the directory), and the content of the
workspace root manifest. -/
structure FS where
  copies : List (String × TomlVal)
  root : TomlVal
deriving DecidableEq

/-- The full state of the main loop: the memoization cache (line 95),
the frame stack (line 96, head of the list is the top of the stack)
and the filesystem. -/
structure WalkState where
  cache : List Nat
  stack : List Frame
  fs : FS
deriving DecidableEq

/-- Name of the working directory (line 86). -/
def basedir : String := "cargo-patch"

/-- Path join, as in basedir.join(name). -/
def joinPath (d n : String) : String := d ++ "/" ++ n

/-- The updated.get_or_insert_with(HashMap::new) pattern
(lines 116, 123, 214). -/
def getOrEmpty : Option (List (String × PackagePath)) → List (String × PackagePath)
  | none => []
  | some m => m

/-- The copy step at lines 156-161: when cargo-patch/name already
exists it is reused (Skipping), otherwise the package source tree is
mirrored there (Copying) and its manifest is the source manifest.
Returns the filesystem afterwards and the content of the manifest
cargo-patch/name/Cargo.toml that the rewrite will read. -/
def mirrorStep (fs : FS) (name : String) (src : TomlVal) : FS × TomlVal :=
  match alookup name fs.copies with
  | some existing => (fs, existing)
  | none => ({ fs with copies := fs.copies ++ [(name, src)] }, src)

/-- The parent update after a pop (lines 211-217): if the stack is
nonempty, insert name -> Path(cargo-patch/name) into the new top
frame's induced map. -/
def propagate (name : String) (stack : List Frame) : List Frame :=
  match stack with
  | [] => []
  | parent :: rs =>
    { parent with updated := some (ainsert name (.path (joinPath basedir name))
        (getOrEmpty parent.updated)) } :: rs

/-- Result of one iteration of the main loop:  either the loop
continues with a new state, or the program returns early with Ok(())
printing a cycle diagnostic (lines 143-145) naming the offending
package, or printing the invalid-dependency diagnostic (lines
196-200), or the loop breaks because the stack is empty (line 109). -/
inductive StepRes where
  | cont (st : WalkState)
  | cycleExit (id : Nat) (st : WalkState)
  | badDepExit (st : WalkState)
  | finished (st : WalkState)
deriving DecidableEq

/-- Finalization of a popped frame (lines 147-217).  If the package
identity is cached, only the parent is updated (lines 149-150 and
211-217).  Otherwise, if the frame accumulated substitutions, the
package is mirrored into the working directory and its copied
manifest rewritten (or, for the root frame, the workspace manifest is
rewritten in place), the identity is cached, and for a non-root frame
the parent is updated.  A frame without substitutions is dropped
silently. -/
def popFinalize (env : Env) (st : WalkState) (entry : Frame) (rest : List Frame) : StepRes :=
  if entry.pkg ∈ st.cache then
    .cont { st with stack := propagate (env.pkgs entry.pkg).name rest }
  else
    match entry.updated with
    | none => .cont { st with stack := rest }
    | some replaces =>
      match rest with
      | _ :: _ =>
        match rewriteDoc (mirrorStep st.fs (env.pkgs entry.pkg).name
            (env.pkgs entry.pkg).manifest).2 replaces with
        | none =>
          .badDepExit { st with
              stack := rest,
              fs := (mirrorStep st.fs (env.pkgs entry.pkg).name
                (env.pkgs entry.pkg).manifest).1 }
        | some doc2 =>
          .cont { cache := entry.pkg :: st.cache,
                  stack := propagate (env.pkgs entry.pkg).name rest,
                  fs := { (mirrorStep st.fs (env.pkgs entry.pkg).name
                      (env.pkgs entry.pkg).manifest).1 with
                    copies := aset (env.pkgs entry.pkg).name doc2
                      (mirrorStep st.fs (env.pkgs entry.pkg).name
                        (env.pkgs entry.pkg).manifest).1.copies } }
      | [] =>
        match rewriteDoc st.fs.root replaces with
        | none => .badDepExit { st with stack := [] }
        | some doc2 =>
          .cont { cache := entry.pkg :: st.cache, stack := [],
                  fs := { st.fs with root := doc2 } }

/-- One iteration of the main loop (lines 104-218).  The top frame is
inspected; if its iterator yields a dependency identity, the identity
resolves to a package and one of three branches runs: the explicit
rule branch (lines 115-118, insert Git and continue), the cache
branch (lines 119-124, which tests the identity of the FRAME'S OWN
package, inserts the frame's own name, and then falls through to the
pop since to_add stays None), or the descend branch (lines 126-146,
push guarded by the in-stack duplicate check).  An exhausted iterator
falls through to the pop (lines 147-217). -/
def step (env : Env) (st : WalkState) : StepRes :=
  match st.stack with
  | [] => .finished st
  | entry :: rest =>
    match entry.deps with
    | id :: ds =>
      let package := env.pkgs id
      match alookup package.name env.replace with
      | some url =>
        .cont { st with stack :=
          { entry with
              deps := ds,
              updated := some (ainsert package.name (.git url)
                (getOrEmpty entry.updated)) } :: rest }
      | none =>
        if entry.pkg ∈ st.cache then
          let name := (env.pkgs entry.pkg).name
          popFinalize env st
            { entry with
                deps := ds,
                updated := some (ainsert name (.path (joinPath basedir name))
                  (getOrEmpty entry.updated)) } rest
        else
          if ({ entry with deps := ds } :: rest).all (fun e => e.pkg != id) then
            .cont { st with stack :=
              ⟨id, env.depsOf id, none⟩ :: { entry with deps := ds } :: rest }
          else
            .cycleExit id st
    | [] => popFinalize env st entry rest

/-- An observable filesystem effect of one loop iteration: the
materialization (mirror plus manifest rewrite) of a package under the
working directory, or the rewrite of the workspace root manifest.
Used to factor the filesystem evolution out of the control flow. -/
inductive Event where
  | mat (name : String) (src : TomlVal) (replaces : List (String × PackagePath))
  | rootRw (replaces : List (String × PackagePath))
deriving DecidableEq

/-- Application of one event to the filesystem.  This is by
construction the exact filesystem transformation of the corresponding
step branch; none models the invalid-dependency early return, in
which case only the mirror part has happened. -/
def applyEvent (fs : FS) : Event → Option FS
  | .mat name src replaces =>
    let pair := mirrorStep fs name src
    match rewriteDoc pair.2 replaces with
    | none => none
    | some doc' => some { pair.1 with copies := aset name doc' pair.1.copies }
  | .rootRw replaces =>
    match rewriteDoc fs.root replaces with
    | none => none
    | some doc' => some { fs with root := doc' }

/-- Sequential application of a list of events. -/
def applyEvents : List Event → FS → Option FS
  | [], fs => some fs
  | e :: es, fs =>
    match applyEvent fs e with
    | none => none
    | some fs' => applyEvents es fs'

/-- The event a pop emits, a function of control state only. -/
def popEvent (env : Env) (cache : List Nat) (entry : Frame) (rest : List Frame) :
    Option Event :=
  if entry.pkg ∈ cache then none
  else
    match entry.updated with
    | none => none
    | some replaces =>
      match rest with
      | _ :: _ => some (.mat (env.pkgs entry.pkg).name (env.pkgs entry.pkg).manifest replaces)
      | [] => some (.rootRw replaces)

/-- The event one loop iteration emits; depends only on the control
part (cache and stack) of the state, never on the filesystem. -/
def stepEvent (env : Env) (cache : List Nat) (stack : List Frame) : Option Event :=
  match stack with
  | [] => none
  | entry :: rest =>
    match entry.deps with
    | _ :: _ => none
    | [] => popEvent env cache entry rest

/-- Outcome of running the loop to completion: the fuel ran out (never
happens for sufficient fuel), or the program returned early through
the cycle diagnostic or the invalid-dependency diagnostic (both of
which are Ok(()) returns, hence success exits), or the loop broke
normally with an empty stack.  Fatal propagated errors (missing
files, parse failures) are not modelled; the environment is total. -/
inductive RunOut where
  | outOfFuel (st : WalkState)
  | cycle (id : Nat) (st : WalkState)
  | badDep (st : WalkState)
  | done (st : WalkState)
deriving DecidableEq

/-- Run the main loop with fuel, collecting the trace of filesystem
events of the completed iterations. -/
def runE (env : Env) : Nat → WalkState → RunOut × List Event
  | 0, st => (.outOfFuel st, [])
  | fuel+1, st =>
    match step env st with
    | .finished st' => (.done st', [])
    | .cycleExit id st' => (.cycle id st', [])
    | .badDepExit st' => (.badDep st', [])
    | .cont st' =>
      let r := runE env fuel st'
      match stepEvent env st.cache st.stack with
      | none => r
      | some ev => (r.1, ev :: r.2)

/-- Iterate the step function n times along continue results. -/
def stepIter (env : Env) : Nat → WalkState → Option WalkState
  | 0, st => some st
  | n+1, st =>
    match step env st with
    | .cont st' => stepIter env n st'
    | _ => none

/-- The initial state (lines 95-102): empty cache, one frame for the
workspace current package with its resolved dependency iterator. -/
def initState (env : Env) (fs : FS) : WalkState :=
  { cache := [], stack := [⟨env.rootId, env.depsOf env.rootId, none⟩], fs := fs }

/-- The value.splitn(2, char) pattern of line 66 on the character
list of a flag value: none when the separator does not occur
(parts.next() yields a single piece and the second next() is None),
otherwise the part before the first separator and everything after
it. -/
def splitnEq : List Char → Option (List Char × List Char)
  | [] => none
  | c :: rest =>
    if c = '=' then some ([], rest)
    else
      match splitnEq rest with
      | none => none
      | some (l, r) => some (c :: l, r)

/-- Split of one --replace flag value on the first '=' sign. -/
def splitEq (s : String) : Option (String × String) :=
  match splitnEq s.data with
  | none => none
  | some (l, r) => some (String.mk l, String.mk r)

/-- The rule-map construction loop (lines 64-76): each well-formed
value inserts name -> url into the map; the first malformed value
aborts with a diagnostic and an Ok(()) return, modelled as none. -/
def buildReplace (acc : List (String × String)) : List String → Option (List (String × String))
  | [] => some acc
  | v :: vs =>
    match splitEq v with
    | some (name, url) => buildReplace (ainsert name url acc) vs
    | none => none

/-- The URL of the last well-formed value for a given name in a list
of flag values; what the final rule map must associate to the name. -/
def lastParsed (name : String) : List String → Option String
  | [] => none
  | v :: vs =>
    match lastParsed name vs with
    | some u => some u
    | none =>
      match splitEq v with
      | some (n, u) => if n = name then some u else none
      | none => none

/-- Concrete two-package environment: package 0 (A) depends on
package 1 (B), no rules.  Used to exhibit the advancing of the
dependency cursor on descent. -/
def env2 : Env :=
  { pkgs := fun i =>
      match i with
      | 0 => ⟨"A", .table []⟩
      | _ => ⟨"B", .table []⟩,
    depsOf := fun i =>
      match i with
      | 0 => [1]
      | _ => [],
    replace := [],
    rootId := 0 }

/-- Concrete five-package environment for the memoization analysis:
A(0) -> B(1), C(2); B -> D(3); C -> D; D -> E(4); rule E.  D is
materialized while walking B, so when C reaches D the identity of D
is already in the cache. -/
def env5 : Env :=
  { pkgs := fun i =>
      match i with
      | 0 => ⟨"A", .table [("dependencies", .table [("B", .str "1.0"), ("C", .str "1.0")])]⟩
      | 1 => ⟨"B", .table [("dependencies", .table [("D", .str "1.0")])]⟩
      | 2 => ⟨"C", .table [("dependencies", .table [("D", .str "1.0")])]⟩
      | 3 => ⟨"D", .table [("dependencies", .table [("E", .str "1.0")])]⟩
      | _ => ⟨"E", .table []⟩,
    depsOf := fun i =>
      match i with
      | 0 => [1, 2]
      | 1 => [3]
      | 2 => [3]
      | 3 => [4]
      | _ => [],
    replace := [("E", "https://x/e")],
    rootId := 0 }

/-- The scenario S3 environment: A(0) -> B(1), C(2); B -> D(3);
C -> D; rule D. -/
def envS3 : Env :=
  { pkgs := fun i =>
      match i with
      | 0 => ⟨"A", .table [("dependencies", .table [("B", .str "1.0"), ("C", .str "1.0")])]⟩
      | 1 => ⟨"B", .table [("dependencies", .table [("D", .str "1.0")])]⟩
      | 2 => ⟨"C", .table [("dependencies", .table [("D", .str "1.0")])]⟩
      | _ => ⟨"D", .table []⟩,
    depsOf := fun i =>
      match i with
      | 0 => [1, 2]
      | 1 => [3]
      | 2 => [3]
      | _ => [],
    replace := [("D", "https://x/d")],
    rootId := 0 }

/-- An empty working directory together with the root manifest of the
respective scenario environment. -/
def fsA (env : Env) : FS := ⟨[], (env.pkgs env.rootId).manifest⟩

/-- No two stack frames share a package identity. -/
def distinctIds (stack : List Frame) : Prop := (stack.map Frame.pkg).Nodup

/-- Number of root-manifest rewrite events in a trace. -/
def rootCount (evs : List Event) : Nat :=
  evs.countP (fun e => match e with | .rootRw _ => true | _ => false)

/-- The state carried by a run outcome. -/
def RunOut.state : RunOut → WalkState
  | .outOfFuel st => st
  | .cycle _ st => st
  | .badDep st => st
  | .done st => st

/-- Sequential rewriting of one document by a list of substitution
maps. -/
def foldRw (d : TomlVal) : List (List (String × PackagePath)) → Option TomlVal
  | [] => some d
  | m :: ms =>
    match rewriteDoc d m with
    | none => none
    | some d2 => foldRw d2 ms

/-- The materialization steps of a trace that concern one
working-directory entry: the source manifest and substitution map of
each mat event for that name, in order. -/
def matStepsFor (n : String) : List Event → List (TomlVal × List (String × PackagePath))
  | [] => []
  | .mat n2 src m :: es =>
    if n2 = n then (src, m) :: matStepsFor n es else matStepsFor n es
  | .rootRw _ :: es => matStepsFor n es

/-- The substitution maps of the root rewrite events of a trace, in
order. -/
def rootMaps : List Event → List (List (String × PackagePath))
  | [] => []
  | .mat _ _ _ :: es => rootMaps es
  | .rootRw m :: es => m :: rootMaps es

/-- Evolution of the manifest of one working-directory entry along its
materialization steps: an absent entry is created from the source of
the step (the mirror), then the manifest is rewritten; failure of a
rewrite is the invalid-dependency abort. -/
def chainDoc : Option TomlVal → List (TomlVal × List (String × PackagePath)) →
    Option (Option TomlVal)
  | cur, [] => some cur
  | cur, (src, m) :: rest =>
    match rewriteDoc (cur.getD src) m with
    | none => none
    | some d => chainDoc (some d) rest

/-- Well-formedness of the modelled filesystem: directory entries of
the working directory have pairwise distinct names, as they do on a
real filesystem. -/
def fsWf (fs : FS) : Prop := (fs.copies.map Prod.fst).Nodup

/-- Every frame strictly above the bottom (root) frame is for a
package whose name is not in the user rule map: such packages are
short-circuited before descent and never get a frame. -/
def noRuleAbove (env : Env) (stack : List Frame) : Prop :=
  ∀ fr ∈ stack.dropLast, alookup (env.pkgs fr.pkg).name env.replace = none

/-- The package identity of the bottom (first pushed) frame of the
stack. -/
def bottomPkg (stack : List Frame) : Option Nat := (stack.map Frame.pkg).getLast?

/-- The bottom frame of a nonempty stack is the workspace current
package, and its identity is never in the memoization cache while it
is on the stack. -/
def rootBottom (env : Env) (st : WalkState) : Prop :=
  (∀ p, bottomPkg st.stack = some p → p = env.rootId) ∧
  (st.stack ≠ [] → env.rootId ∉ st.cache)

/-- An induced-substitutions map, once present, is nonempty: it is
only ever created by an insertion. -/
def updNonempty (st : WalkState) : Prop :=
  ∀ fr ∈ st.stack, ∀ m, fr.updated = some m → m ≠ []

/-- The replacement values a substitution map holds for one key, in
order. -/
def mvalsFor (k : String) (m : List (String × PackagePath)) : List PackagePath :=
  (m.filter (fun p => p.1 == k)).map Prod.snd

/-- The last replacement value a substitution map holds for one key
(last write wins). -/
def lastValFor (k : String) (m : List (String × PackagePath)) : Option PackagePath :=
  (mvalsFor k m).getLast?

/-- The shape every rewritten dependency entry has: the surviving
siblings of the original entry followed by the single inserted
path or git binding. -/
def normLast (v0 : TomlVal) (w : PackagePath) : TomlVal :=
  .table (filt3 (sib v0) ++ [encKV w])

/-- Every binding of a key in a table holds one fixed value. -/
def allAt {α : Type} (k : String) (d : α) (t : List (String × α)) : Prop :=
  ∀ p ∈ t, p.1 = k → p.2 = d

/-- Final walk state of the scenario S3 run started from the empty
working directory (computed by evaluation): B and C are materialized
with their D dependency rewritten to the rule URL, and the root
manifest points B and C at local working-directory paths. -/
def s1S3 : WalkState :=
  ⟨[0, 2, 1], [],
    ⟨[("B", .table [("dependencies",
          .table [("D", .table [("git", .str "https://x/d")])])]),
      ("C", .table [("dependencies",
          .table [("D", .table [("git", .str "https://x/d")])])])],
      .table [("dependencies",
        .table [("B", .table [("path", .str "cargo-patch/B")]),
          ("C", .table [("path", .str "cargo-patch/C")])])]⟩⟩

/-- Event trace of the scenario S3 run: two materializations and one
root rewrite. -/
def evsS3 : List Event :=
  [.mat "B" (.table [("dependencies", .table [("D", .str "1.0")])])
      [("D", .git "https://x/d")],
   .mat "C" (.table [("dependencies", .table [("D", .str "1.0")])])
      [("D", .git "https://x/d")],
   .rootRw [("B", .path "cargo-patch/B"), ("C", .path "cargo-patch/C")]]

/-! ## Association list lemmas -/

theorem alookup_cons {α : Type} (k k2 : String) (v : α) (rest : List (String × α)) :
    alookup k ((k2, v) :: rest) = if k2 = k then some v else alookup k rest := rfl

theorem aremove_cons_self {α : Type} (k k2 : String) (v : α) (rest : List (String × α))
    (h : k2 = k) : aremove k ((k2, v) :: rest) = aremove k rest := by
  simp [aremove, List.filter_cons, h]

theorem aremove_cons_ne {α : Type} (k k2 : String) (v : α) (rest : List (String × α))
    (h : k2 ≠ k) : aremove k ((k2, v) :: rest) = (k2, v) :: aremove k rest := by
  simp [aremove, List.filter_cons, h]

theorem aset_cons_self {α : Type} (k : String) (v : α) (k2 : String) (v2 : α)
    (rest : List (String × α)) (h : k2 = k) :
    aset k v ((k2, v2) :: rest) = (k, v) :: aset k v rest := by
  simp [aset, h]

theorem aset_cons_ne {α : Type} (k : String) (v : α) (k2 : String) (v2 : α)
    (rest : List (String × α)) (h : k2 ≠ k) :
    aset k v ((k2, v2) :: rest) = (k2, v2) :: aset k v rest := by
  simp [aset, h]

theorem alookup_append {α : Type} (k : String) (a b : List (String × α)) :
    alookup k (a ++ b) =
      match alookup k a with
      | some v => some v
      | none => alookup k b := by
  induction a with
  | nil => simp [alookup]
  | cons p rest ih =>
    obtain ⟨k', v⟩ := p
    by_cases h : k' = k <;> simp [alookup, h, ih]

theorem alookup_aremove {α : Type} (k k' : String) (m : List (String × α)) :
    alookup k (aremove k' m) = if k' = k then none else alookup k m := by
  induction m with
  | nil => simp [alookup, aremove]
  | cons p rest ih =>
    obtain ⟨k2, v⟩ := p
    by_cases h2 : k2 = k'
    · rw [aremove_cons_self k' k2 v rest h2, ih]
      by_cases h : k' = k
      · simp [h]
      · rw [if_neg h, if_neg h, alookup_cons, if_neg (h2 ▸ h)]
    · rw [aremove_cons_ne k' k2 v rest h2, alookup_cons, alookup_cons, ih]
      by_cases h : k2 = k
      · have hk : ¬ k' = k := fun he => h2 (h.trans he.symm)
        simp [h, hk]
      · simp [h]

theorem alookup_aset {α : Type} (k k' : String) (v : α) (m : List (String × α)) :
    alookup k (aset k' v m) =
      if k' = k then (alookup k m).map (fun _ => v) else alookup k m := by
  induction m with
  | nil => simp [alookup, aset]
  | cons p rest ih =>
    obtain ⟨k2, v2⟩ := p
    by_cases h2 : k2 = k'
    · rw [aset_cons_self k' v k2 v2 rest h2, alookup_cons, alookup_cons, ih]
      by_cases h : k' = k
      · simp [h, h2.trans h]
      · have hk : ¬ k2 = k := fun he => h (h2.symm.trans he)
        simp [h, hk]
    · rw [aset_cons_ne k' v k2 v2 rest h2, alookup_cons, alookup_cons, ih]
      by_cases h : k2 = k
      · have hk : ¬ k' = k := fun he => h2 (h.trans he.symm)
        simp [h, hk]
      · simp [h]

theorem alookup_single {α : Type} (k : String) (p : String × α) :
    alookup k [p] = if p.1 = k then some p.2 else none := by
  obtain ⟨a, b⟩ := p
  rfl

theorem alookup_ainsert {α : Type} (k k' : String) (v : α) (m : List (String × α)) :
    alookup k (ainsert k' v m) = if k' = k then some v else alookup k m := by
  by_cases h : k' = k <;>
    simp [ainsert, alookup_append, alookup_aremove, h, alookup] <;>
    cases alookup k m <;> simp

theorem aset_keys {α : Type} (k : String) (v : α) (m : List (String × α)) :
    (aset k v m).map Prod.fst = m.map Prod.fst := by
  induction m with
  | nil => rfl
  | cons p rest ih =>
    obtain ⟨k2, v2⟩ := p
    by_cases h : k2 = k
    · rw [aset_cons_self k v k2 v2 rest h]
      simp [ih, h]
    · rw [aset_cons_ne k v k2 v2 rest h]
      simp [ih]

/-! ## change_path and normalizeDep lemmas -/

theorem change_path_eq (t : List (String × TomlVal)) (v : PackagePath) :
    change_path t v = filt3 t ++ [encKV v] := rfl

theorem alookup_filt3 (k : String) (t : List (String × TomlVal)) :
    alookup k (filt3 t) =
      if k = "version" ∨ k = "path" ∨ k = "git" then none else alookup k t := by
  unfold filt3
  rw [alookup_aremove, alookup_aremove, alookup_aremove]
  by_cases h1 : k = "version" <;> by_cases h2 : k = "path" <;> by_cases h3 : k = "git" <;>
    simp [h1, h2, h3, eq_comm]

theorem encKV_fst_mem (v : PackagePath) : (encKV v).1 = "path" ∨ (encKV v).1 = "git" := by
  cases v <;> simp [encKV]

/-- Key property of change_path: version is gone, exactly the encoded
key of the replacement is present, and all other keys are preserved. -/
theorem change_path_lookup (t : List (String × TomlVal)) (v : PackagePath) (k : String) :
    alookup k (change_path t v) =
      if k = (encKV v).1 then some (encKV v).2
      else if k = "version" ∨ k = "path" ∨ k = "git" then none
      else alookup k t := by
  rw [change_path_eq, alookup_append, alookup_filt3, alookup_single]
  by_cases hk : k = (encKV v).1
  · have h3 : k = "version" ∨ k = "path" ∨ k = "git" := by
      rcases encKV_fst_mem v with h | h <;> rw [hk, h] <;> simp
    rw [if_pos h3, if_pos hk]
    show (if (encKV v).1 = k then some (encKV v).2 else none) = some (encKV v).2
    rw [if_pos hk.symm]
  · have hk2 : ¬ (encKV v).1 = k := fun he => hk he.symm
    by_cases h3 : k = "version" ∨ k = "path" ∨ k = "git"
    · simp [h3, hk, hk2]
    · rw [if_neg h3, if_neg hk]
      cases alookup k t <;> simp [hk2]

/-- Shape of a table produced by change_path. -/
theorem change_path_shape (t : List (String × TomlVal)) (v : PackagePath) :
    alookup "version" (change_path t v) = none ∧
    (∀ p, v = .path p → alookup "path" (change_path t v) = some (.str p) ∧
      alookup "git" (change_path t v) = none) ∧
    (∀ u, v = .git u → alookup "git" (change_path t v) = some (.str u) ∧
      alookup "path" (change_path t v) = none) ∧
    (∀ k, k ≠ "version" → k ≠ "path" → k ≠ "git" →
      alookup k (change_path t v) = alookup k t) := by
  refine ⟨?_, ?_, ?_, ?_⟩
  · rw [change_path_lookup]
    cases v <;> simp [encKV]
  · rintro p rfl
    constructor <;> rw [change_path_lookup] <;> simp [encKV]
  · rintro u rfl
    constructor <;> rw [change_path_lookup] <;> simp [encKV]
  · intro k h1 h2 h3
    rw [change_path_lookup]
    have hk : ¬ k = (encKV v).1 := by
      rcases encKV_fst_mem v with h | h <;> rw [h] <;> assumption
    simp [hk, h1, h2, h3]

/-- C5: a dependency entry rewritten by the normalize step is a table;
the keys version, path, git are removed unconditionally; exactly one
of path (for a Local replacement) or git (for a Remote replacement)
is inserted; every other sibling key the entry originally had is
preserved untouched. -/
theorem c5_normalize_shape (e : TomlVal) (v : PackagePath) (e' : TomlVal)
    (h : normalizeDep e v = some e') :
    ∃ t', e' = TomlVal.table t' ∧
      alookup "version" t' = none ∧
      (∀ p, v = .path p → alookup "path" t' = some (.str p) ∧ alookup "git" t' = none) ∧
      (∀ u, v = .git u → alookup "git" t' = some (.str u) ∧ alookup "path" t' = none) ∧
      (∀ k, k ≠ "version" → k ≠ "path" → k ≠ "git" → alookup k t' = alookup k (sib e)) := by
  cases e with
  | str s =>
    have h2 : TomlVal.table (change_path [] v) = e' := Option.some.inj h
    subst h2
    obtain ⟨a, b, c, d⟩ := change_path_shape [] v
    exact ⟨_, rfl, a, b, c, d⟩
  | table t =>
    have h2 : TomlVal.table (change_path t v) = e' := Option.some.inj h
    subst h2
    obtain ⟨a, b, c, d⟩ := change_path_shape t v
    exact ⟨_, rfl, a, b, c, d⟩
  | other n => exact absurd h (by simp [normalizeDep])

/-- Witness for c5_normalize_shape at a concrete entry carrying a
version, a features sibling, and a Remote replacement. -/
theorem c5_normalize_shape_witness :
    normalizeDep (.table [("version", .str "1.0"), ("features", .str "f")]) (.git "u") =
      some (.table [("features", .str "f"), ("git", .str "u")]) ∧
    ∃ t', (TomlVal.table [("features", TomlVal.str "f"), ("git", TomlVal.str "u")]) =
        TomlVal.table t' ∧
      alookup "version" t' = none ∧
      (∀ p, PackagePath.git "u" = .path p →
        alookup "path" t' = some (.str p) ∧ alookup "git" t' = none) ∧
      (∀ u, PackagePath.git "u" = .git u →
        alookup "git" t' = some (.str u) ∧ alookup "path" t' = none) ∧
      (∀ k, k ≠ "version" → k ≠ "path" → k ≠ "git" →
        alookup k t' = alookup k (sib (.table [("version", .str "1.0"),
          ("features", .str "f")]))) :=
  ⟨rfl, c5_normalize_shape _ _ _ rfl⟩

/-- C6: the normalize step replaces a scalar-string entry with an
empty table before rewriting; any other non-string non-table shape
makes normalize fail, the failure aborts the table loop, and at the
walk level the iteration ends in the invalid-dependency diagnostic
with an Ok(()) success return, before any write of the manifest: the
filesystem keeps the un-rewritten manifest content (only the mirror
of the source tree has happened for a non-root frame). -/
theorem c6_bad_shape :
    (∀ (s : String) (v : PackagePath),
      normalizeDep (.str s) v = some (.table (change_path [] v))) ∧
    (∀ (n : Nat) (v : PackagePath), normalizeDep (.other n) v = none) ∧
    (∀ (t : List (String × TomlVal)) (key : String) (value : PackagePath)
        (rest : List (String × PackagePath)) (dep : TomlVal),
      alookup key t = some dep → normalizeDep dep value = none →
      applyReplaces t ((key, value) :: rest) = none) ∧
    (∀ (env : Env) (cache : List Nat) (entry : Frame) (par : Frame) (rs : List Frame)
        (fs : FS) (replaces : List (String × PackagePath)),
      entry.deps = [] → entry.pkg ∉ cache → entry.updated = some replaces →
      rewriteDoc (mirrorStep fs (env.pkgs entry.pkg).name
        (env.pkgs entry.pkg).manifest).2 replaces = none →
      step env ⟨cache, entry :: par :: rs, fs⟩ =
        .badDepExit ⟨cache, par :: rs,
          (mirrorStep fs (env.pkgs entry.pkg).name (env.pkgs entry.pkg).manifest).1⟩) ∧
    (∀ (env : Env) (cache : List Nat) (entry : Frame) (fs : FS)
        (replaces : List (String × PackagePath)),
      entry.deps = [] → entry.pkg ∉ cache → entry.updated = some replaces →
      rewriteDoc fs.root replaces = none →
      step env ⟨cache, [entry], fs⟩ = .badDepExit ⟨cache, [], fs⟩) := by
  refine ⟨fun s v => rfl, fun n v => rfl, ?_, ?_, ?_⟩
  · intro t key value rest dep h1 h2
    simp [applyReplaces, h1, h2]
  · intro env cache entry par rs fs replaces hdeps hc hupd hrw
    simp only [step, hdeps, popFinalize, hupd]
    rw [if_neg hc]
    simp only [hrw]
  · intro env cache entry fs replaces hdeps hc hupd hrw
    simp only [step, hdeps, popFinalize, hupd]
    rw [if_neg hc]
    simp only [hrw]

/-- Witness for c6_bad_shape: a root frame over a manifest whose
dependency bad has an integer entry. -/
theorem c6_bad_shape_witness :
    (⟨0, [], some [("bad", .git "u")]⟩ : Frame).deps = [] ∧
    (0 : Nat) ∉ ([] : List Nat) ∧
    (⟨0, [], some [("bad", .git "u")]⟩ : Frame).updated = some [("bad", .git "u")] ∧
    rewriteDoc (FS.mk [] (.table [("dependencies", .table [("bad", .other 7)])])).root
      [("bad", .git "u")] = none ∧
    step env2 ⟨[], [⟨0, [], some [("bad", .git "u")]⟩],
        ⟨[], .table [("dependencies", .table [("bad", .other 7)])]⟩⟩ =
      .badDepExit ⟨[], [], ⟨[], .table [("dependencies", .table [("bad", .other 7)])]⟩⟩ :=
  ⟨rfl, by simp, rfl, rfl,
    c6_bad_shape.2.2.2.2 env2 [] ⟨0, [], some [("bad", .git "u")]⟩
      ⟨[], .table [("dependencies", .table [("bad", .other 7)])]⟩
      [("bad", .git "u")] rfl (by simp) rfl rfl⟩

/-- Splitting on the first separator: everything before the first
occurrence is the name, everything after it (which may itself contain
further separators) is the URL. -/
theorem splitnEq_first (a b : List Char) (h : '=' ∉ a) :
    splitnEq (a ++ '=' :: b) = some (a, b) := by
  induction a with
  | nil => simp [splitnEq]
  | cons c rest ih =>
    have hc : c ≠ '=' := fun he => h (by simp [he])
    have hr : '=' ∉ rest := fun hm => h (by simp [hm])
    simp [splitnEq, hc, ih hr]

/-- A value without a separator makes the split fail. -/
theorem splitnEq_none (v : List Char) (h : '=' ∉ v) : splitnEq v = none := by
  induction v with
  | nil => rfl
  | cons c rest ih =>
    have hc : c ≠ '=' := fun he => h (by simp [he])
    have hr : '=' ∉ rest := fun hm => h (by simp [hm])
    simp [splitnEq, hc, ih hr]

/-- One malformed value aborts the whole rule-map construction. -/
theorem buildReplace_abort (vs : List String) (acc : List (String × String))
    (h : ∃ v ∈ vs, splitEq v = none) : buildReplace acc vs = none := by
  induction vs generalizing acc with
  | nil => simp at h
  | cons v rest ih =>
    obtain ⟨w, hw, hwn⟩ := h
    rcases List.mem_cons.1 hw with rfl | hmem
    · simp [buildReplace, hwn]
    · cases hv : splitEq v with
      | none => simp [buildReplace, hv]
      | some p =>
        obtain ⟨n, u⟩ := p
        simp [buildReplace, hv]
        exact ih _ ⟨w, hmem, hwn⟩

/-- All well-formed values build a rule map. -/
theorem buildReplace_total (vs : List String) (acc : List (String × String))
    (h : ∀ v ∈ vs, (splitEq v).isSome) : (buildReplace acc vs).isSome := by
  induction vs generalizing acc with
  | nil => simp [buildReplace]
  | cons v rest ih =>
    cases hv : splitEq v with
    | none =>
      have := h v (by simp)
      rw [hv] at this
      simp at this
    | some p =>
      obtain ⟨n, u⟩ := p
      simp [buildReplace, hv]
      exact ih _ (fun w hw => h w (by simp [hw]))

/-- The built map associates to each name the URL of the last
well-formed value for that name, and otherwise keeps the accumulator
binding. -/
theorem buildReplace_lookup (vs : List String) (acc m : List (String × String))
    (name : String) (h : buildReplace acc vs = some m) :
    alookup name m =
      match lastParsed name vs with
      | some u => some u
      | none => alookup name acc := by
  induction vs generalizing acc with
  | nil =>
    have h2 : acc = m := Option.some.inj h
    subst h2
    simp [lastParsed]
  | cons v rest ih =>
    cases hv : splitEq v with
    | none => rw [buildReplace, hv] at h; exact absurd h (by simp)
    | some p =>
      obtain ⟨n, u⟩ := p
      rw [buildReplace, hv] at h
      rw [ih _ h]
      cases hl : lastParsed name rest with
      | some u' => simp [lastParsed, hl]
      | none =>
        simp only [lastParsed, hl, hv]
        rw [alookup_ainsert]
        by_cases hn : n = name <;> simp [hn]

/-- C8: each --replace value is split on the first separator into a
name and a URL, the URL part may itself contain the separator, a
value without a separator aborts the construction with the usage
diagnostic and an Ok(()) success return (modelled as none), and the
map built from well-formed values associates each name to its URL
(last value wins, HashMap insert semantics). -/
theorem c8_replace_flag :
    (∀ a b : List Char, '=' ∉ a → splitnEq (a ++ '=' :: b) = some (a, b)) ∧
    (∀ v : List Char, '=' ∉ v → splitnEq v = none) ∧
    (∀ vs acc, (∃ v ∈ vs, splitEq v = none) → buildReplace acc vs = none) ∧
    (∀ vs acc, (∀ v ∈ vs, (splitEq v).isSome) → (buildReplace acc vs).isSome) ∧
    (∀ vs m name url, buildReplace [] vs = some m → lastParsed name vs = some url →
      alookup name m = some url) :=
  ⟨splitnEq_first, splitnEq_none, fun vs acc h => buildReplace_abort vs acc h,
   fun vs acc h => buildReplace_total vs acc h,
   fun vs m name url h hl => by rw [buildReplace_lookup vs [] m name h, hl]⟩

/-- Witness for c8_replace_flag on concrete values: the URL side keeps
its separators, a separatorless value aborts, and the map of two
well-formed values resolves a name to its URL. -/
theorem c8_replace_flag_witness :
    splitnEq ("ab".data ++ '=' :: "c=d".data) = some ("ab".data, "c=d".data) ∧
    splitnEq "abc".data = none ∧
    buildReplace [] ["ab"] = none ∧
    (buildReplace [] ["a=b", "c=d"]).isSome ∧
    alookup "a" [("a", "b"), ("c", "d")] = some "b" := by
  refine ⟨c8_replace_flag.1 _ _ (by decide), c8_replace_flag.2.1 _ (by decide),
    c8_replace_flag.2.2.1 ["ab"] [] ⟨"ab", by simp, by rfl⟩,
    c8_replace_flag.2.2.2.1 ["a=b", "c=d"] [] ?_,
    c8_replace_flag.2.2.2.2 ["a=b", "c=d"] [("a", "b"), ("c", "d")] "a" "b" rfl rfl⟩
  intro v hv
  rcases List.mem_cons.1 hv with rfl | hv2
  · rfl
  · rcases List.mem_cons.1 hv2 with rfl | hv3
    · rfl
    · simp at hv3

/-! ## Walk step lemmas -/

/-- C10: popping a frame whose package identity is already memoized
performs no copy and no manifest rewrite (the filesystem and the
cache are returned unchanged), discards the induced map the frame may
have accumulated, and only propagates Local(working-dir/name) into
the parent frame.  This covers both the pop after an exhausted
iterator and the early pop through the own-identity cache branch of
the main loop (whose own-name insertion is discarded with the rest of
the induced map). -/
theorem c10_memoized_pop :
    (∀ (env : Env) (cache : List Nat) (entry : Frame) (rest : List Frame) (fs : FS),
      entry.deps = [] → entry.pkg ∈ cache →
      step env ⟨cache, entry :: rest, fs⟩ =
        .cont ⟨cache, propagate (env.pkgs entry.pkg).name rest, fs⟩) ∧
    (∀ (env : Env) (cache : List Nat) (entry : Frame) (rest : List Frame) (fs : FS)
        (id : Nat) (ds : List Nat),
      entry.deps = id :: ds → alookup (env.pkgs id).name env.replace = none →
      entry.pkg ∈ cache →
      step env ⟨cache, entry :: rest, fs⟩ =
        .cont ⟨cache, propagate (env.pkgs entry.pkg).name rest, fs⟩) ∧
    (∀ (name : String) (parent : Frame) (rs : List Frame),
      propagate name (parent :: rs) =
        { parent with updated := some (ainsert name
            (.path (joinPath basedir name)) (getOrEmpty parent.updated)) } :: rs) := by
  refine ⟨?_, ?_, fun name parent rs => rfl⟩
  · intro env cache entry rest fs hdeps hc
    simp only [step, hdeps, popFinalize]
    rw [if_pos hc]
  · intro env cache entry rest fs id ds hdeps hrep hc
    simp only [step, hdeps, hrep, popFinalize]
    rw [if_pos hc, if_pos hc]

/-- Witness for c10_memoized_pop: package 1 is cached, its frame pops,
the parent frame 0 receives the Local entry, nothing else changes. -/
theorem c10_memoized_pop_witness :
    (⟨1, [], some [("x", .git "u")]⟩ : Frame).deps = [] ∧
    (1 : Nat) ∈ [1] ∧
    step env2 ⟨[1], [⟨1, [], some [("x", .git "u")]⟩, ⟨0, [1], none⟩], fsA env2⟩ =
      .cont ⟨[1], propagate (env2.pkgs 1).name [⟨0, [1], none⟩], fsA env2⟩ :=
  ⟨rfl, by simp,
    c10_memoized_pop.1 env2 [1] ⟨1, [], some [("x", .git "u")]⟩ [⟨0, [1], none⟩]
      (fsA env2) rfl (by simp)⟩


/-! ## Branch equations of the step function -/

theorem step_nil (env : Env) (cache : List Nat) (fs : FS) :
    step env ⟨cache, [], fs⟩ = .finished ⟨cache, [], fs⟩ := rfl

theorem step_rule (env : Env) (cache : List Nat) (pkg id : Nat) (ds : List Nat)
    (upd : Option (List (String × PackagePath))) (rest : List Frame) (fs : FS) (url : String)
    (hrep : alookup (env.pkgs id).name env.replace = some url) :
    step env ⟨cache, ⟨pkg, id :: ds, upd⟩ :: rest, fs⟩ =
      .cont ⟨cache, ⟨pkg, ds, some (ainsert (env.pkgs id).name (.git url)
        (getOrEmpty upd))⟩ :: rest, fs⟩ := by
  simp only [step]
  rw [hrep]

theorem step_selfcache (env : Env) (cache : List Nat) (pkg id : Nat) (ds : List Nat)
    (upd : Option (List (String × PackagePath))) (rest : List Frame) (fs : FS)
    (hrep : alookup (env.pkgs id).name env.replace = none) (hc : pkg ∈ cache) :
    step env ⟨cache, ⟨pkg, id :: ds, upd⟩ :: rest, fs⟩ =
      .cont ⟨cache, propagate (env.pkgs pkg).name rest, fs⟩ := by
  simp only [step]
  rw [hrep]
  simp only [popFinalize]
  rw [if_pos hc, if_pos hc]

theorem step_descend (env : Env) (cache : List Nat) (pkg id : Nat) (ds : List Nat)
    (upd : Option (List (String × PackagePath))) (rest : List Frame) (fs : FS)
    (hrep : alookup (env.pkgs id).name env.replace = none) (hc : pkg ∉ cache)
    (hall : (Frame.mk pkg ds upd :: rest).all (fun e => e.pkg != id) = true) :
    step env ⟨cache, ⟨pkg, id :: ds, upd⟩ :: rest, fs⟩ =
      .cont ⟨cache, ⟨id, env.depsOf id, none⟩ :: ⟨pkg, ds, upd⟩ :: rest, fs⟩ := by
  simp only [step]
  rw [hrep]
  simp only [popFinalize]
  rw [if_neg hc, hall]
  rfl

theorem step_cycle (env : Env) (cache : List Nat) (pkg id : Nat) (ds : List Nat)
    (upd : Option (List (String × PackagePath))) (rest : List Frame) (fs : FS)
    (hrep : alookup (env.pkgs id).name env.replace = none) (hc : pkg ∉ cache)
    (hall : (Frame.mk pkg ds upd :: rest).all (fun e => e.pkg != id) = false) :
    step env ⟨cache, ⟨pkg, id :: ds, upd⟩ :: rest, fs⟩ =
      .cycleExit id ⟨cache, ⟨pkg, id :: ds, upd⟩ :: rest, fs⟩ := by
  simp only [step]
  rw [hrep]
  simp only [popFinalize]
  rw [if_neg hc, hall]
  rfl

theorem step_pop (env : Env) (cache : List Nat) (pkg : Nat)
    (upd : Option (List (String × PackagePath))) (rest : List Frame) (fs : FS) :
    step env ⟨cache, ⟨pkg, [], upd⟩ :: rest, fs⟩ =
      popFinalize env ⟨cache, ⟨pkg, [], upd⟩ :: rest, fs⟩ ⟨pkg, [], upd⟩ rest := rfl

theorem popFinalize_cached (env : Env) (st : WalkState) (entry : Frame) (rest : List Frame)
    (hc : entry.pkg ∈ st.cache) :
    popFinalize env st entry rest =
      .cont { st with stack := propagate (env.pkgs entry.pkg).name rest } := by
  unfold popFinalize
  rw [if_pos hc]

theorem popFinalize_skip (env : Env) (st : WalkState) (entry : Frame) (rest : List Frame)
    (hc : entry.pkg ∉ st.cache) (hu : entry.updated = none) :
    popFinalize env st entry rest = .cont { st with stack := rest } := by
  unfold popFinalize
  rw [if_neg hc, hu]

theorem popFinalize_mat_fail (env : Env) (st : WalkState) (entry par : Frame)
    (rs : List Frame) (replaces : List (String × PackagePath))
    (hc : entry.pkg ∉ st.cache) (hu : entry.updated = some replaces)
    (hrw : rewriteDoc (mirrorStep st.fs (env.pkgs entry.pkg).name
      (env.pkgs entry.pkg).manifest).2 replaces = none) :
    popFinalize env st entry (par :: rs) =
      .badDepExit { st with
        stack := par :: rs,
        fs := (mirrorStep st.fs (env.pkgs entry.pkg).name
          (env.pkgs entry.pkg).manifest).1 } := by
  unfold popFinalize
  rw [if_neg hc, hu]
  simp only [hrw]

theorem popFinalize_mat_ok (env : Env) (st : WalkState) (entry par : Frame)
    (rs : List Frame) (replaces : List (String × PackagePath)) (doc2 : TomlVal)
    (hc : entry.pkg ∉ st.cache) (hu : entry.updated = some replaces)
    (hrw : rewriteDoc (mirrorStep st.fs (env.pkgs entry.pkg).name
      (env.pkgs entry.pkg).manifest).2 replaces = some doc2) :
    popFinalize env st entry (par :: rs) =
      .cont ⟨entry.pkg :: st.cache,
        propagate (env.pkgs entry.pkg).name (par :: rs),
        { (mirrorStep st.fs (env.pkgs entry.pkg).name
            (env.pkgs entry.pkg).manifest).1 with
          copies := aset (env.pkgs entry.pkg).name doc2
            (mirrorStep st.fs (env.pkgs entry.pkg).name
              (env.pkgs entry.pkg).manifest).1.copies }⟩ := by
  unfold popFinalize
  rw [if_neg hc, hu]
  simp only [hrw]

theorem popFinalize_root_fail (env : Env) (st : WalkState) (entry : Frame)
    (replaces : List (String × PackagePath))
    (hc : entry.pkg ∉ st.cache) (hu : entry.updated = some replaces)
    (hrw : rewriteDoc st.fs.root replaces = none) :
    popFinalize env st entry [] = .badDepExit { st with stack := [] } := by
  unfold popFinalize
  rw [if_neg hc, hu]
  simp only [hrw]

theorem popFinalize_root_ok (env : Env) (st : WalkState) (entry : Frame)
    (replaces : List (String × PackagePath)) (doc2 : TomlVal)
    (hc : entry.pkg ∉ st.cache) (hu : entry.updated = some replaces)
    (hrw : rewriteDoc st.fs.root replaces = some doc2) :
    popFinalize env st entry [] =
      .cont ⟨entry.pkg :: st.cache, [], { st.fs with root := doc2 }⟩ := by
  unfold popFinalize
  rw [if_neg hc, hu]
  simp only [hrw]

theorem propagate_pkgs (name : String) (rest : List Frame) :
    (propagate name rest).map Frame.pkg = rest.map Frame.pkg := by
  cases rest <;> rfl

/-- Preservation of distinct package identities by a continuing step. -/
theorem step_distinct (env : Env) (st st' : WalkState)
    (h : step env st = .cont st') (hd : distinctIds st.stack) :
    distinctIds st'.stack := by
  obtain ⟨cache, stack, fs⟩ := st
  cases stack with
  | nil =>
    rw [step_nil] at h
    exact absurd h (by simp)
  | cons entry rest =>
    obtain ⟨pkg, deps, upd⟩ := entry
    have hd2 : distinctIds rest := by
      unfold distinctIds at hd ⊢
      simp only [List.map_cons] at hd
      exact hd.of_cons
    cases deps with
    | nil =>
      rw [step_pop] at h
      by_cases hc : pkg ∈ cache
      · rw [popFinalize_cached env _ _ rest hc] at h
        have h2 := StepRes.cont.inj h
        subst h2
        show distinctIds (propagate (env.pkgs pkg).name rest)
        unfold distinctIds
        rw [propagate_pkgs]
        exact hd2
      · cases upd with
        | none =>
          rw [popFinalize_skip env _ _ rest hc rfl] at h
          have h2 := StepRes.cont.inj h
          subst h2
          exact hd2
        | some replaces =>
          cases rest with
          | nil =>
            cases hrw : rewriteDoc fs.root replaces with
            | none =>
              rw [popFinalize_root_fail env _ _ replaces hc rfl hrw] at h
              exact absurd h (by simp)
            | some doc2 =>
              rw [popFinalize_root_ok env _ _ replaces doc2 hc rfl hrw] at h
              have h2 := StepRes.cont.inj h
              subst h2
              show distinctIds []
              simp [distinctIds]
          | cons par rs =>
            cases hrw : rewriteDoc (mirrorStep fs (env.pkgs pkg).name
                (env.pkgs pkg).manifest).2 replaces with
            | none =>
              rw [popFinalize_mat_fail env _ _ par rs replaces hc rfl hrw] at h
              exact absurd h (by simp)
            | some doc2 =>
              rw [popFinalize_mat_ok env _ _ par rs replaces doc2 hc rfl hrw] at h
              have h2 := StepRes.cont.inj h
              subst h2
              show distinctIds (propagate (env.pkgs pkg).name (par :: rs))
              unfold distinctIds
              rw [propagate_pkgs]
              exact hd2
    | cons id ds =>
      cases hrep : alookup (env.pkgs id).name env.replace with
      | some url =>
        rw [step_rule env cache pkg id ds upd rest fs url hrep] at h
        have h2 := StepRes.cont.inj h
        subst h2
        unfold distinctIds at hd ⊢
        simpa using hd
      | none =>
        by_cases hc : pkg ∈ cache
        · rw [step_selfcache env cache pkg id ds upd rest fs hrep hc] at h
          have h2 := StepRes.cont.inj h
          subst h2
          show distinctIds (propagate (env.pkgs pkg).name rest)
          unfold distinctIds
          rw [propagate_pkgs]
          exact hd2
        · cases hall : (Frame.mk pkg ds upd :: rest).all (fun e => e.pkg != id) with
          | true =>
            rw [step_descend env cache pkg id ds upd rest fs hrep hc hall] at h
            have h2 := StepRes.cont.inj h
            subst h2
            unfold distinctIds at hd ⊢
            simp only [List.map_cons] at hd ⊢
            refine List.nodup_cons.2 ⟨?_, hd⟩
            intro hmem
            have hall2 := List.all_eq_true.1 hall
            rcases List.mem_cons.1 hmem with he | hmem2
            · have hx := hall2 ⟨pkg, ds, upd⟩ (by simp)
              simp at hx
              exact hx he.symm
            · obtain ⟨fr, hfr, hfr2⟩ := List.mem_map.1 hmem2
              have hx := hall2 fr (by simp [hfr])
              simp at hx
              exact hx hfr2
          | false =>
            rw [step_cycle env cache pkg id ds upd rest fs hrep hc hall] at h
            exact absurd h (by simp)

/-- C7: no two stack frames ever share a package identity.  The
initial stack is a single frame; every continuing step preserves
distinctness (a push is guarded by the in-stack duplicate check); and
whenever the resolved dependency identity already occurs in some
stack frame, the step does not push but returns the cycle diagnostic
naming the offending package, as an Ok(()) success exit, leaving the
state unchanged. -/
theorem c7_cycle :
    (∀ (env : Env) (fs : FS), distinctIds (initState env fs).stack) ∧
    (∀ (env : Env) (st st' : WalkState),
      step env st = .cont st' → distinctIds st.stack → distinctIds st'.stack) ∧
    (∀ (env : Env) (cache : List Nat) (pkg id : Nat) (ds : List Nat)
        (upd : Option (List (String × PackagePath))) (rest : List Frame) (fs : FS),
      alookup (env.pkgs id).name env.replace = none → pkg ∉ cache →
      (∃ fr ∈ Frame.mk pkg (id :: ds) upd :: rest, fr.pkg = id) →
      step env ⟨cache, ⟨pkg, id :: ds, upd⟩ :: rest, fs⟩ =
        .cycleExit id ⟨cache, ⟨pkg, id :: ds, upd⟩ :: rest, fs⟩) := by
  refine ⟨fun env fs => by simp [initState, distinctIds],
    fun env st st' h hd => step_distinct env st st' h hd, ?_⟩
  intro env cache pkg id ds upd rest fs hrep hc hdup
  obtain ⟨fr, hfr, hpk⟩ := hdup
  have hall : (Frame.mk pkg ds upd :: rest).all (fun e => e.pkg != id) = false := by
    rw [List.all_eq_false]
    rcases List.mem_cons.1 hfr with rfl | hm
    · simp only at hpk
      exact ⟨⟨pkg, ds, upd⟩, by simp, by simp [hpk]⟩
    · exact ⟨fr, by simp [hm], by simp [hpk]⟩
  exact step_cycle env cache pkg id ds upd rest fs hrep hc hall

/-- Witness for c7_cycle: a frame for package 1 whose next dependency
resolves to package 0, which is already on the stack below it. -/
theorem c7_cycle_witness :
    alookup (env2.pkgs 0).name env2.replace = none ∧
    (1 : Nat) ∉ ([] : List Nat) ∧
    (∃ fr ∈ Frame.mk 1 [0] none :: [Frame.mk 0 [] none], fr.pkg = 0) ∧
    step env2 ⟨[], [⟨1, [0], none⟩, ⟨0, [], none⟩], fsA env2⟩ =
      .cycleExit 0 ⟨[], [⟨1, [0], none⟩, ⟨0, [], none⟩], fsA env2⟩ :=
  ⟨rfl, by simp, ⟨⟨0, [], none⟩, by simp, rfl⟩,
    c7_cycle.2.2 env2 [] 1 0 [] none [⟨0, [], none⟩] (fsA env2) rfl (by simp)
      ⟨⟨0, [], none⟩, by simp, rfl⟩⟩

/-- C1 failing run, demonstrating the divergence at src/main.rs line
119: the cache branch tests the identity of the frame's own package
(entry.package) instead of the resolved dependency (the shadowed
package binding).  In env5, after six steps the walk has materialized
package 3 (D, via the path through B) so 3 is in the memoization set,
and the top frame is package 2 (C) whose next unconsumed dependency
is 3.  The claimed behaviour is that the step records the Local entry
for D in the induced map of C and advances without pushing; instead
the step pushes a frame for package 3, leaving the induced map of C
untouched. -/
theorem c1_memoized_push :
    ((stepIter env5 6 (initState env5 (fsA env5))).map
      (fun st => (st.stack.map Frame.pkg, st.stack.map Frame.deps, st.cache)) =
      some ([2, 0], [[3], []], [1, 3])) ∧
    ((stepIter env5 7 (initState env5 (fsA env5))).map
      (fun st => (st.stack.map Frame.pkg, st.stack.map Frame.updated, st.cache)) =
      some ([3, 2, 0], [none, none, some [("B", .path "cargo-patch/B")]], [1, 3])) :=
  ⟨rfl, rfl⟩

/-- Counterexample to C2 as stated: on the first step of the walk of
env2 the descend branch for dependency 1 of the root frame pushes the
child frame AND leaves the root frame with an empty dependency
cursor, so dependency 1 is never examined again; the completed run
performs no further work on it. -/
theorem c2_counterexample :
    step env2 (initState env2 (fsA env2)) =
      .cont ⟨[], [⟨1, [], none⟩, ⟨0, [], none⟩], fsA env2⟩ ∧
    runE env2 4 (initState env2 (fsA env2)) = (.done ⟨[], [], fsA env2⟩, []) :=
  ⟨rfl, rfl⟩

/-- C2 amended: when the walk takes the Descend branch for dependency
d of the top frame, the dependency cursor IS advanced past d before
the child frame is pushed, and d is not re-examined; the substitution
induced by the child instead reaches the parent frame through the
pop-time update, which inserts child-name -> Local(working-dir/name)
into the parent's induced map both when the child frame is popped
after materialization and when its identity is already memoized. -/
theorem c2_amended :
    (∀ (env : Env) (cache : List Nat) (pkg id : Nat) (ds : List Nat)
        (upd : Option (List (String × PackagePath))) (rest : List Frame) (fs : FS),
      alookup (env.pkgs id).name env.replace = none → pkg ∉ cache →
      (Frame.mk pkg ds upd :: rest).all (fun e => e.pkg != id) = true →
      step env ⟨cache, ⟨pkg, id :: ds, upd⟩ :: rest, fs⟩ =
        .cont ⟨cache, ⟨id, env.depsOf id, none⟩ :: ⟨pkg, ds, upd⟩ :: rest, fs⟩) ∧
    (∀ (env : Env) (st : WalkState) (entry par : Frame) (rs : List Frame)
        (replaces : List (String × PackagePath)) (doc2 : TomlVal),
      entry.pkg ∉ st.cache → entry.updated = some replaces →
      rewriteDoc (mirrorStep st.fs (env.pkgs entry.pkg).name
        (env.pkgs entry.pkg).manifest).2 replaces = some doc2 →
      ∃ fs2, popFinalize env st entry (par :: rs) =
        .cont ⟨entry.pkg :: st.cache,
          { par with updated := some (ainsert (env.pkgs entry.pkg).name
            (.path (joinPath basedir (env.pkgs entry.pkg).name))
            (getOrEmpty par.updated)) } :: rs, fs2⟩) ∧
    (∀ (env : Env) (st : WalkState) (entry par : Frame) (rs : List Frame),
      entry.pkg ∈ st.cache →
      popFinalize env st entry (par :: rs) =
        .cont { st with stack := { par with updated := some (ainsert
          (env.pkgs entry.pkg).name
          (.path (joinPath basedir (env.pkgs entry.pkg).name))
          (getOrEmpty par.updated)) } :: rs }) := by
  refine ⟨step_descend, ?_, ?_⟩
  · intro env st entry par rs replaces doc2 hc hu hrw
    exact ⟨_, popFinalize_mat_ok env st entry par rs replaces doc2 hc hu hrw⟩
  · intro env st entry par rs hc
    exact popFinalize_cached env st entry (par :: rs) hc

/-- Witness for c2_amended at concrete inputs: the descend step of
env2 and a memoized pop with a parent frame. -/
theorem c2_amended_witness :
    (alookup (env2.pkgs 1).name env2.replace = none ∧
     (0 : Nat) ∉ ([] : List Nat) ∧
     (Frame.mk 0 [] none :: []).all (fun e => e.pkg != 1) = true ∧
     step env2 ⟨[], [⟨0, [1], none⟩], fsA env2⟩ =
       .cont ⟨[], [⟨1, [], none⟩, ⟨0, [], none⟩], fsA env2⟩) ∧
    ((1 : Nat) ∈ [1] ∧
     popFinalize env2 ⟨[1], [], fsA env2⟩ ⟨1, [], none⟩ [⟨0, [], none⟩] =
       .cont ⟨[1], [⟨0, [], some [("B", .path "cargo-patch/B")]⟩], fsA env2⟩) := by
  refine ⟨⟨rfl, by simp, rfl, ?_⟩, ⟨by simp, ?_⟩⟩
  · exact c2_amended.1 env2 [] 0 1 [] none [] (fsA env2) rfl (by simp) rfl
  · exact c2_amended.2.2 env2 ⟨[1], [], fsA env2⟩ ⟨1, [], none⟩ ⟨0, [], none⟩ [] (by simp)

theorem noRuleAbove_of_pkgs (env : Env) (s1 s2 : List Frame)
    (hp : s2.map Frame.pkg = s1.map Frame.pkg) (hn : noRuleAbove env s1) :
    noRuleAbove env s2 := by
  intro fr hfr
  have h1 : fr.pkg ∈ (s2.map Frame.pkg).dropLast := by
    rw [← List.map_dropLast]
    exact List.mem_map_of_mem _ hfr
  rw [hp, ← List.map_dropLast] at h1
  obtain ⟨fr1, hfr1, hpk⟩ := List.mem_map.1 h1
  rw [← hpk]
  exact hn fr1 hfr1

theorem noRuleAbove_tail (env : Env) (entry : Frame) (rest : List Frame)
    (hn : noRuleAbove env (entry :: rest)) : noRuleAbove env rest := by
  intro fr hfr
  apply hn
  cases rest with
  | nil => simp at hfr
  | cons r1 rs =>
    rw [List.dropLast_cons₂]
    exact List.mem_cons_of_mem _ hfr

theorem mirrorStep_lookup_ne (fs : FS) (name : String) (src : TomlVal) (n : String)
    (hne : name ≠ n) :
    alookup n (mirrorStep fs name src).1.copies = alookup n fs.copies := by
  unfold mirrorStep
  cases h : alookup name fs.copies with
  | some existing => rfl
  | none =>
    simp only
    rw [alookup_append]
    cases h2 : alookup n fs.copies with
    | some v => rfl
    | none => simp [alookup_single, hne]

/-- A continuing step preserves the rule-free property of non-bottom
frames and never touches a working-directory entry whose name has a
rule. -/
theorem step_c3_cont (env : Env) (st st' : WalkState) (h : step env st = .cont st')
    (hn : noRuleAbove env st.stack) (n url : String)
    (hr : alookup n env.replace = some url) :
    noRuleAbove env st'.stack ∧ alookup n st'.fs.copies = alookup n st.fs.copies := by
  obtain ⟨cache, stack, fs⟩ := st
  cases stack with
  | nil =>
    rw [step_nil] at h
    exact absurd h (by simp)
  | cons entry rest =>
    obtain ⟨pkg, deps, upd⟩ := entry
    have hnt : noRuleAbove env rest := noRuleAbove_tail env _ rest hn
    have hprop : noRuleAbove env (propagate (env.pkgs pkg).name rest) :=
      noRuleAbove_of_pkgs env rest _ (propagate_pkgs _ _) hnt
    cases deps with
    | nil =>
      rw [step_pop] at h
      by_cases hc : pkg ∈ cache
      · rw [popFinalize_cached env _ _ rest hc] at h
        have h2 := StepRes.cont.inj h
        subst h2
        exact ⟨hprop, rfl⟩
      · cases upd with
        | none =>
          rw [popFinalize_skip env _ _ rest hc rfl] at h
          have h2 := StepRes.cont.inj h
          subst h2
          exact ⟨hnt, rfl⟩
        | some replaces =>
          cases rest with
          | nil =>
            cases hrw : rewriteDoc fs.root replaces with
            | none =>
              rw [popFinalize_root_fail env _ _ replaces hc rfl hrw] at h
              exact absurd h (by simp)
            | some doc2 =>
              rw [popFinalize_root_ok env _ _ replaces doc2 hc rfl hrw] at h
              have h2 := StepRes.cont.inj h
              subst h2
              exact ⟨fun fr hfr => by simp at hfr, rfl⟩
          | cons par rs =>
            have hname : (env.pkgs pkg).name ≠ n := by
              intro he
              have h0 := hn ⟨pkg, [], some replaces⟩ (by
                rw [List.dropLast_cons₂]
                exact List.mem_cons_self _ _)
              rw [he, hr] at h0
              exact Option.noConfusion h0
            cases hrw : rewriteDoc (mirrorStep fs (env.pkgs pkg).name
                (env.pkgs pkg).manifest).2 replaces with
            | none =>
              rw [popFinalize_mat_fail env _ _ par rs replaces hc rfl hrw] at h
              exact absurd h (by simp)
            | some doc2 =>
              rw [popFinalize_mat_ok env _ _ par rs replaces doc2 hc rfl hrw] at h
              have h2 := StepRes.cont.inj h
              subst h2
              refine ⟨hprop, ?_⟩
              show alookup n (aset (env.pkgs pkg).name doc2
                (mirrorStep fs (env.pkgs pkg).name (env.pkgs pkg).manifest).1.copies) = _
              rw [alookup_aset, if_neg hname,
                mirrorStep_lookup_ne fs _ _ n hname]
    | cons id ds =>
      cases hrep : alookup (env.pkgs id).name env.replace with
      | some url2 =>
        rw [step_rule env cache pkg id ds upd rest fs url2 hrep] at h
        have h2 := StepRes.cont.inj h
        subst h2
        exact ⟨noRuleAbove_of_pkgs env _ _ (by simp) hn, rfl⟩
      | none =>
        by_cases hc : pkg ∈ cache
        · rw [step_selfcache env cache pkg id ds upd rest fs hrep hc] at h
          have h2 := StepRes.cont.inj h
          subst h2
          exact ⟨hprop, rfl⟩
        · cases hall : (Frame.mk pkg ds upd :: rest).all (fun e => e.pkg != id) with
          | true =>
            rw [step_descend env cache pkg id ds upd rest fs hrep hc hall] at h
            have h2 := StepRes.cont.inj h
            subst h2
            refine ⟨?_, rfl⟩
            intro fr hfr
            rw [List.dropLast_cons₂] at hfr
            rcases List.mem_cons.1 hfr with rfl | hm
            · exact hrep
            · exact noRuleAbove_of_pkgs env (⟨pkg, id :: ds, upd⟩ :: rest) _ (by simp) hn fr hm
          | false =>
            rw [step_cycle env cache pkg id ds upd rest fs hrep hc hall] at h
            exact absurd h (by simp)

/-- The diagnostic exit of an invalid dependency entry also never
touches a rule-named working-directory entry. -/
theorem step_c3_bad (env : Env) (st st' : WalkState) (h : step env st = .badDepExit st')
    (hn : noRuleAbove env st.stack) (n url : String)
    (hr : alookup n env.replace = some url) :
    alookup n st'.fs.copies = alookup n st.fs.copies := by
  obtain ⟨cache, stack, fs⟩ := st
  cases stack with
  | nil =>
    rw [step_nil] at h
    exact absurd h (by simp)
  | cons entry rest =>
    obtain ⟨pkg, deps, upd⟩ := entry
    cases deps with
    | nil =>
      rw [step_pop] at h
      by_cases hc : pkg ∈ cache
      · rw [popFinalize_cached env _ _ rest hc] at h
        exact absurd h (by simp)
      · cases upd with
        | none =>
          rw [popFinalize_skip env _ _ rest hc rfl] at h
          exact absurd h (by simp)
        | some replaces =>
          cases rest with
          | nil =>
            cases hrw : rewriteDoc fs.root replaces with
            | none =>
              rw [popFinalize_root_fail env _ _ replaces hc rfl hrw] at h
              have h2 := StepRes.badDepExit.inj h
              subst h2
              rfl
            | some doc2 =>
              rw [popFinalize_root_ok env _ _ replaces doc2 hc rfl hrw] at h
              exact absurd h (by simp)
          | cons par rs =>
            have hname : (env.pkgs pkg).name ≠ n := by
              intro he
              have h0 := hn ⟨pkg, [], some replaces⟩ (by
                rw [List.dropLast_cons₂]
                exact List.mem_cons_self _ _)
              rw [he, hr] at h0
              exact Option.noConfusion h0
            cases hrw : rewriteDoc (mirrorStep fs (env.pkgs pkg).name
                (env.pkgs pkg).manifest).2 replaces with
            | none =>
              rw [popFinalize_mat_fail env _ _ par rs replaces hc rfl hrw] at h
              have h2 := StepRes.badDepExit.inj h
              subst h2
              exact mirrorStep_lookup_ne fs _ _ n hname
            | some doc2 =>
              rw [popFinalize_mat_ok env _ _ par rs replaces doc2 hc rfl hrw] at h
              exact absurd h (by simp)
    | cons id ds =>
      cases hrep : alookup (env.pkgs id).name env.replace with
      | some url2 =>
        rw [step_rule env cache pkg id ds upd rest fs url2 hrep] at h
        exact absurd h (by simp)
      | none =>
        by_cases hc : pkg ∈ cache
        · rw [step_selfcache env cache pkg id ds upd rest fs hrep hc] at h
          exact absurd h (by simp)
        · cases hall : (Frame.mk pkg ds upd :: rest).all (fun e => e.pkg != id) with
          | true =>
            rw [step_descend env cache pkg id ds upd rest fs hrep hc hall] at h
            exact absurd h (by simp)
          | false =>
            rw [step_cycle env cache pkg id ds upd rest fs hrep hc hall] at h
            exact absurd h (by simp)

/-- A finished step happens exactly on the empty stack and does not
change the state. -/
theorem step_finished_eq (env : Env) (st st2 : WalkState)
    (h : step env st = .finished st2) : st2 = st ∧ st.stack = [] := by
  obtain ⟨cache, stack, fs⟩ := st
  cases stack with
  | nil =>
    rw [step_nil] at h
    exact ⟨(StepRes.finished.inj h).symm, rfl⟩
  | cons entry rest =>
    obtain ⟨pkg, deps, upd⟩ := entry
    exfalso
    cases deps with
    | nil =>
      rw [step_pop] at h
      by_cases hc : pkg ∈ cache
      · rw [popFinalize_cached env _ _ rest hc] at h
        exact absurd h (by simp)
      · cases upd with
        | none =>
          rw [popFinalize_skip env _ _ rest hc rfl] at h
          exact absurd h (by simp)
        | some replaces =>
          cases rest with
          | nil =>
            cases hrw : rewriteDoc fs.root replaces with
            | none =>
              rw [popFinalize_root_fail env _ _ replaces hc rfl hrw] at h
              exact absurd h (by simp)
            | some doc2 =>
              rw [popFinalize_root_ok env _ _ replaces doc2 hc rfl hrw] at h
              exact absurd h (by simp)
          | cons par rs =>
            cases hrw : rewriteDoc (mirrorStep fs (env.pkgs pkg).name
                (env.pkgs pkg).manifest).2 replaces with
            | none =>
              rw [popFinalize_mat_fail env _ _ par rs replaces hc rfl hrw] at h
              exact absurd h (by simp)
            | some doc2 =>
              rw [popFinalize_mat_ok env _ _ par rs replaces doc2 hc rfl hrw] at h
              exact absurd h (by simp)
    | cons id ds =>
      cases hrep : alookup (env.pkgs id).name env.replace with
      | some url2 =>
        rw [step_rule env cache pkg id ds upd rest fs url2 hrep] at h
        exact absurd h (by simp)
      | none =>
        by_cases hc : pkg ∈ cache
        · rw [step_selfcache env cache pkg id ds upd rest fs hrep hc] at h
          exact absurd h (by simp)
        · cases hall : (Frame.mk pkg ds upd :: rest).all (fun e => e.pkg != id) with
          | true =>
            rw [step_descend env cache pkg id ds upd rest fs hrep hc hall] at h
            exact absurd h (by simp)
          | false =>
            rw [step_cycle env cache pkg id ds upd rest fs hrep hc hall] at h
            exact absurd h (by simp)

/-- A cycle exit does not change the state. -/
theorem step_cycleExit_eq (env : Env) (st st2 : WalkState) (id : Nat)
    (h : step env st = .cycleExit id st2) : st2 = st := by
  obtain ⟨cache, stack, fs⟩ := st
  cases stack with
  | nil =>
    rw [step_nil] at h
    exact absurd h (by simp)
  | cons entry rest =>
    obtain ⟨pkg, deps, upd⟩ := entry
    cases deps with
    | nil =>
      exfalso
      rw [step_pop] at h
      by_cases hc : pkg ∈ cache
      · rw [popFinalize_cached env _ _ rest hc] at h
        exact absurd h (by simp)
      · cases upd with
        | none =>
          rw [popFinalize_skip env _ _ rest hc rfl] at h
          exact absurd h (by simp)
        | some replaces =>
          cases rest with
          | nil =>
            cases hrw : rewriteDoc fs.root replaces with
            | none =>
              rw [popFinalize_root_fail env _ _ replaces hc rfl hrw] at h
              exact absurd h (by simp)
            | some doc2 =>
              rw [popFinalize_root_ok env _ _ replaces doc2 hc rfl hrw] at h
              exact absurd h (by simp)
          | cons par rs =>
            cases hrw : rewriteDoc (mirrorStep fs (env.pkgs pkg).name
                (env.pkgs pkg).manifest).2 replaces with
            | none =>
              rw [popFinalize_mat_fail env _ _ par rs replaces hc rfl hrw] at h
              exact absurd h (by simp)
            | some doc2 =>
              rw [popFinalize_mat_ok env _ _ par rs replaces doc2 hc rfl hrw] at h
              exact absurd h (by simp)
    | cons id2 ds =>
      cases hrep : alookup (env.pkgs id2).name env.replace with
      | some url2 =>
        rw [step_rule env cache pkg id2 ds upd rest fs url2 hrep] at h
        exact absurd h (by simp)
      | none =>
        by_cases hc : pkg ∈ cache
        · rw [step_selfcache env cache pkg id2 ds upd rest fs hrep hc] at h
          exact absurd h (by simp)
        · cases hall : (Frame.mk pkg ds upd :: rest).all (fun e => e.pkg != id2) with
          | true =>
            rw [step_descend env cache pkg id2 ds upd rest fs hrep hc hall] at h
            exact absurd h (by simp)
          | false =>
            rw [step_cycle env cache pkg id2 ds upd rest fs hrep hc hall] at h
            exact (StepRes.cycleExit.inj h).2.symm

/-- Along a whole run, the working-directory entry of a rule-named
package is never created or modified. -/
theorem runE_not_copied (env : Env) (fuel : Nat) (st : WalkState)
    (hn : noRuleAbove env st.stack) (n url : String)
    (hr : alookup n env.replace = some url) :
    alookup n ((runE env fuel st).1.state.fs.copies) = alookup n st.fs.copies := by
  induction fuel generalizing st with
  | zero => rfl
  | succ fuel ih =>
    rw [runE]
    cases hs : step env st with
    | finished st2 =>
      rw [(step_finished_eq env st st2 hs).1]
      rfl
    | cycleExit id st2 =>
      rw [step_cycleExit_eq env st st2 id hs]
      rfl
    | badDepExit st2 =>
      exact step_c3_bad env st st2 hs hn n url hr
    | cont st2 =>
      obtain ⟨hn2, hfs⟩ := step_c3_cont env st st2 hs hn n url hr
      have ih2 := ih st2 hn2
      cases stepEvent env st.cache st.stack <;> simp only <;> rw [ih2, hfs]

/-- C3: a dependency whose name has a user rule with URL u makes the
walk record name -> Remote(u) in the top frame's induced map and
advance, without pushing a frame (first part); consequently, over any
whole run from the initial state, the working-directory entry of a
rule-named package is never created or modified (second part).  In
scenario S3 (A depends on B and C, both depend on D, rule D) the
concrete run materializes B and C exactly once each, never
materializes D, rewrites D to the git source in both copied
manifests, and rewrites B and C to local paths in the root manifest
(third part). -/
theorem c3_rule_short_circuit :
    (∀ (env : Env) (cache : List Nat) (pkg id : Nat) (ds : List Nat)
        (upd : Option (List (String × PackagePath))) (rest : List Frame) (fs : FS)
        (url : String),
      alookup (env.pkgs id).name env.replace = some url →
      step env ⟨cache, ⟨pkg, id :: ds, upd⟩ :: rest, fs⟩ =
        .cont ⟨cache, ⟨pkg, ds, some (ainsert (env.pkgs id).name (.git url)
          (getOrEmpty upd))⟩ :: rest, fs⟩) ∧
    (∀ (env : Env) (fuel : Nat) (fs0 : FS) (n url : String),
      alookup n env.replace = some url →
      alookup n ((runE env fuel (initState env fs0)).1.state.fs.copies) =
        alookup n fs0.copies) ∧
    (runE envS3 30 (initState envS3 (fsA envS3)) =
      (.done ⟨[0, 2, 1], [],
        ⟨[("B", .table [("dependencies",
            .table [("D", .table [("git", .str "https://x/d")])])]),
          ("C", .table [("dependencies",
            .table [("D", .table [("git", .str "https://x/d")])])])],
         .table [("dependencies",
           .table [("B", .table [("path", .str "cargo-patch/B")]),
                   ("C", .table [("path", .str "cargo-patch/C")])])]⟩⟩,
       [.mat "B" (.table [("dependencies", .table [("D", .str "1.0")])])
          [("D", .git "https://x/d")],
        .mat "C" (.table [("dependencies", .table [("D", .str "1.0")])])
          [("D", .git "https://x/d")],
        .rootRw [("B", .path "cargo-patch/B"), ("C", .path "cargo-patch/C")]])) := by
  refine ⟨step_rule, ?_, rfl⟩
  intro env fuel fs0 n url hr
  exact runE_not_copied env fuel (initState env fs0)
    (by intro fr hfr; simp [initState] at hfr) n url hr

/-- Witness for c3_rule_short_circuit: the rule branch at a concrete
state of envS3 (frame B examining dependency D) and the run-level
part instantiated on envS3. -/
theorem c3_rule_short_circuit_witness :
    (alookup (envS3.pkgs 3).name envS3.replace = some "https://x/d" ∧
     step envS3 ⟨[], [⟨1, [3], none⟩, ⟨0, [2], none⟩], fsA envS3⟩ =
       .cont ⟨[], [⟨1, [], some [("D", .git "https://x/d")]⟩, ⟨0, [2], none⟩],
         fsA envS3⟩) ∧
    (alookup "D" envS3.replace = some "https://x/d" ∧
     alookup "D" ((runE envS3 30 (initState envS3 (fsA envS3))).1.state.fs.copies) =
       alookup "D" (fsA envS3).copies) :=
  ⟨⟨rfl, c3_rule_short_circuit.1 envS3 [] 1 3 [] none [⟨0, [2], none⟩] (fsA envS3)
      "https://x/d" rfl⟩,
   ⟨rfl, c3_rule_short_circuit.2.1 envS3 30 (fsA envS3) "D" "https://x/d" rfl⟩⟩

/-! ## Root rewrite lemmas -/

theorem runE_empty_events (env : Env) (fuel : Nat) (st : WalkState)
    (h : st.stack = []) : (runE env fuel st).2 = [] := by
  obtain ⟨cache, stack, fs⟩ := st
  subst h
  cases fuel with
  | zero => rfl
  | succ fuel => rw [runE, step_nil]

theorem stepEvent_rootRw_eq (env : Env) (cache : List Nat) (stack : List Frame)
    (m : List (String × PackagePath))
    (h : stepEvent env cache stack = some (.rootRw m)) :
    ∃ pkg, stack = [⟨pkg, [], some m⟩] ∧ pkg ∉ cache := by
  cases stack with
  | nil => exact absurd h (by simp [stepEvent])
  | cons entry rest =>
    obtain ⟨pkg, deps, upd⟩ := entry
    cases deps with
    | cons id ds => exact absurd h (by simp [stepEvent])
    | nil =>
      simp only [stepEvent] at h
      unfold popEvent at h
      by_cases hc : pkg ∈ cache
      · rw [if_pos hc] at h
        exact absurd h (by simp)
      · rw [if_neg hc] at h
        cases upd with
        | none => exact absurd h (by simp)
        | some replaces =>
          cases rest with
          | cons par rs => exact absurd h (by simp)
          | nil =>
            simp only at h
            have hm := Event.rootRw.inj (Option.some.inj h)
            exact ⟨pkg, by rw [hm], hc⟩

theorem stepEvent_bottom (env : Env) (cache : List Nat) (fr : Frame)
    (hdeps : fr.deps = []) (hc : fr.pkg ∉ cache) :
    stepEvent env cache [fr] = Option.map Event.rootRw fr.updated := by
  obtain ⟨pkg, deps, upd⟩ := fr
  simp only at hdeps hc
  subst hdeps
  simp only [stepEvent]
  unfold popEvent
  rw [if_neg hc]
  cases upd <;> rfl

/-- C4 part: a frame for the empty stack follows a root rewrite, so a
trace contains at most one root rewrite event. -/
theorem rootCount_le_one (env : Env) (fuel : Nat) (st : WalkState) :
    rootCount (runE env fuel st).2 ≤ 1 := by
  induction fuel generalizing st with
  | zero => simp [runE, rootCount]
  | succ fuel ih =>
    rw [runE]
    cases hs : step env st with
    | finished st2 => simp [rootCount]
    | cycleExit id st2 => simp [rootCount]
    | badDepExit st2 => simp [rootCount]
    | cont st2 =>
      cases hev : stepEvent env st.cache st.stack with
      | none => exact ih st2
      | some ev =>
        cases ev with
        | mat n src m =>
          simp only [rootCount, List.countP_cons]
          have := ih st2
          simp only [rootCount] at this
          simpa using this
        | rootRw m =>
          obtain ⟨pkg, hstack, hc⟩ := stepEvent_rootRw_eq env st.cache st.stack m hev
          have hempty : st2.stack = [] := by
            obtain ⟨cache, stack, fs⟩ := st
            simp only at hstack
            subst hstack
            rw [step_pop] at hs
            cases hrw : rewriteDoc fs.root m with
            | none =>
              rw [popFinalize_root_fail env _ _ m hc rfl hrw] at hs
              exact absurd hs (by simp)
            | some doc2 =>
              rw [popFinalize_root_ok env _ _ m doc2 hc rfl hrw] at hs
              have h2 := StepRes.cont.inj hs
              rw [← h2]
          simp [rootCount, runE_empty_events env fuel st2 hempty]

theorem getLast?_mem_of_eq {α : Type} (l : List α) (a : α) (h : l.getLast? = some a) :
    a ∈ l := by
  obtain ⟨hne, heq⟩ := List.mem_getLast?_eq_getLast (l := l) (x := a) (by rw [Option.mem_def, h])
  rw [heq]
  exact List.getLast_mem hne

theorem bottomPkg_cons (fr : Frame) (rest : List Frame) (h : rest ≠ []) :
    bottomPkg (fr :: rest) = bottomPkg rest := by
  cases rest with
  | nil => exact absurd rfl h
  | cons r rs =>
    unfold bottomPkg
    simp only [List.map_cons]
    rw [List.getLast?_cons_cons]

theorem bottomPkg_propagate (name : String) (rest : List Frame) :
    bottomPkg (propagate name rest) = bottomPkg rest := by
  unfold bottomPkg
  rw [propagate_pkgs]

theorem propagate_ne_nil (name : String) (rest : List Frame)
    (h : propagate name rest ≠ []) : rest ≠ [] := by
  cases rest with
  | nil => exact absurd rfl h
  | cons par rs => simp

theorem ainsert_ne_nil {α : Type} (k : String) (v : α) (m : List (String × α)) :
    ainsert k v m ≠ [] := by
  simp [ainsert]

theorem updNonempty_frames (stack : List Frame) :
    updNonempty ⟨[], stack, ⟨[], .table []⟩⟩ =
      (∀ fr ∈ stack, ∀ m, fr.updated = some m → m ≠ []) := rfl

/-- Preservation of the root-bottom and nonempty-induced-map
invariants by a continuing step. -/
theorem step_c4_inv (env : Env) (st st' : WalkState) (h : step env st = .cont st')
    (hd : distinctIds st.stack) (hb : rootBottom env st) (hu : updNonempty st) :
    rootBottom env st' ∧ updNonempty st' := by
  obtain ⟨cache, stack, fs⟩ := st
  obtain ⟨hb1, hb2⟩ := hb
  cases stack with
  | nil =>
    rw [step_nil] at h
    exact absurd h (by simp)
  | cons entry rest =>
    obtain ⟨pkg, deps, upd⟩ := entry
    have hrestu : ∀ fr ∈ rest, ∀ m, fr.updated = some m → m ≠ [] :=
      fun fr hfr => hu fr (List.mem_cons_of_mem _ hfr)
    have hpropu : updNonempty ⟨cache, propagate (env.pkgs pkg).name rest, fs⟩ := by
      intro fr hfr m hm
      cases rest with
      | nil => simp [propagate] at hfr
      | cons par rs =>
        simp only [propagate] at hfr
        rcases List.mem_cons.1 hfr with rfl | hmem
        · simp only at hm
          have h2 := Option.some.inj hm
          rw [← h2]
          exact ainsert_ne_nil _ _ _
        · exact hrestu fr (List.mem_cons_of_mem _ hmem) m hm
    have hpropb : rootBottom env ⟨cache, propagate (env.pkgs pkg).name rest, fs⟩ := by
      refine ⟨?_, ?_⟩
      · intro p hp
        rw [bottomPkg_propagate] at hp
        apply hb1
        rw [bottomPkg_cons]
        · exact hp
        · intro he
          rw [he] at hp
          exact Option.noConfusion hp
      · intro hne
        exact hb2 (by simp)
    have hpopb : rootBottom env ⟨cache, rest, fs⟩ := by
      refine ⟨?_, ?_⟩
      · intro p hp
        apply hb1
        rw [bottomPkg_cons]
        · exact hp
        · intro he
          rw [he] at hp
          exact Option.noConfusion hp
      · intro hne
        exact hb2 (by simp)
    cases deps with
    | nil =>
      rw [step_pop] at h
      by_cases hc : pkg ∈ cache
      · rw [popFinalize_cached env _ _ rest hc] at h
        have h2 := StepRes.cont.inj h
        subst h2
        exact ⟨hpropb, hpropu⟩
      · cases upd with
        | none =>
          rw [popFinalize_skip env _ _ rest hc rfl] at h
          have h2 := StepRes.cont.inj h
          subst h2
          exact ⟨hpopb, fun fr hfr => hrestu fr hfr⟩
        | some replaces =>
          cases rest with
          | nil =>
            cases hrw : rewriteDoc fs.root replaces with
            | none =>
              rw [popFinalize_root_fail env _ _ replaces hc rfl hrw] at h
              exact absurd h (by simp)
            | some doc2 =>
              rw [popFinalize_root_ok env _ _ replaces doc2 hc rfl hrw] at h
              have h2 := StepRes.cont.inj h
              subst h2
              refine ⟨⟨fun p hp => absurd hp (by simp [bottomPkg]), fun hne => absurd rfl hne⟩,
                fun fr hfr => absurd hfr (by simp)⟩
          | cons par rs =>
            cases hrw : rewriteDoc (mirrorStep fs (env.pkgs pkg).name
                (env.pkgs pkg).manifest).2 replaces with
            | none =>
              rw [popFinalize_mat_fail env _ _ par rs replaces hc rfl hrw] at h
              exact absurd h (by simp)
            | some doc2 =>
              rw [popFinalize_mat_ok env _ _ par rs replaces doc2 hc rfl hrw] at h
              have h2 := StepRes.cont.inj h
              subst h2
              refine ⟨⟨fun p hp => ?_, fun hne => ?_⟩, fun fr hfr m hm => hpropu fr hfr m hm⟩
              · rw [bottomPkg_propagate] at hp
                apply hb1
                rw [bottomPkg_cons _ _ (by simp)]
                exact hp
              · have hq : ∃ q, bottomPkg (⟨pkg, [], some replaces⟩ :: par :: rs) = some q := by
                  have : (List.map Frame.pkg (⟨pkg, [], some replaces⟩ :: par :: rs)) ≠ [] := by
                    simp
                  obtain ⟨q, hq⟩ := Option.isSome_iff_exists.1 (List.getLast?_isSome.2 this)
                  exact ⟨q, hq⟩
                obtain ⟨q, hq⟩ := hq
                have hqroot : q = env.rootId := hb1 q hq
                have hqmem : q ∈ List.map Frame.pkg (par :: rs) := by
                  rw [bottomPkg_cons _ _ (by simp)] at hq
                  exact getLast?_mem_of_eq _ q hq
                have hne2 : pkg ≠ q := by
                  intro he
                  unfold distinctIds at hd
                  simp only [List.map_cons] at hd
                  rw [he] at hd
                  exact (List.nodup_cons.1 hd).1 hqmem
                intro hmem
                rcases List.mem_cons.1 hmem with he | hmem2
                · exact hne2 (hqroot.trans he).symm
                · exact hb2 (by simp) hmem2
    | cons id ds =>
      cases hrep : alookup (env.pkgs id).name env.replace with
      | some url2 =>
        rw [step_rule env cache pkg id ds upd rest fs url2 hrep] at h
        have h2 := StepRes.cont.inj h
        subst h2
        refine ⟨⟨fun p hp => hb1 p (by
            unfold bottomPkg at hp ⊢
            simpa using hp), fun hne => hb2 (by simp)⟩, ?_⟩
        intro fr hfr m hm
        rcases List.mem_cons.1 hfr with rfl | hmem
        · simp only at hm
          have h2 := Option.some.inj hm
          rw [← h2]
          exact ainsert_ne_nil _ _ _
        · exact hrestu fr hmem m hm
      | none =>
        by_cases hc : pkg ∈ cache
        · rw [step_selfcache env cache pkg id ds upd rest fs hrep hc] at h
          have h2 := StepRes.cont.inj h
          subst h2
          exact ⟨hpropb, hpropu⟩
        · cases hall : (Frame.mk pkg ds upd :: rest).all (fun e => e.pkg != id) with
          | true =>
            rw [step_descend env cache pkg id ds upd rest fs hrep hc hall] at h
            have h2 := StepRes.cont.inj h
            subst h2
            refine ⟨⟨fun p hp => hb1 p (by
                unfold bottomPkg at hp ⊢
                rw [List.map_cons, List.map_cons, List.getLast?_cons_cons] at hp
                simpa using hp), fun hne => hb2 (by simp)⟩, ?_⟩
            intro fr hfr m hm
            rcases List.mem_cons.1 hfr with rfl | hmem
            · exact absurd hm (by simp)
            · rcases List.mem_cons.1 hmem with rfl | hmem2
              · exact hu ⟨pkg, id :: ds, upd⟩ (by simp) m hm
              · exact hrestu fr hmem2 m hm
          | false =>
            rw [step_cycle env cache pkg id ds upd rest fs hrep hc hall] at h
            exact absurd h (by simp)

theorem stepIter_inv_gen (env : Env) (n : Nat) (st st' : WalkState)
    (h : stepIter env n st = some st')
    (hinv : distinctIds st.stack ∧ rootBottom env st ∧ updNonempty st) :
    distinctIds st'.stack ∧ rootBottom env st' ∧ updNonempty st' := by
  induction n generalizing st with
  | zero =>
    have h2 := Option.some.inj h
    subst h2
    exact hinv
  | succ n ih =>
    rw [stepIter] at h
    cases hs : step env st with
    | cont st2 =>
      rw [hs] at h
      have hnext := step_c4_inv env st st2 hs hinv.1 hinv.2.1 hinv.2.2
      exact ih st2 h ⟨step_distinct env st st2 hs hinv.1, hnext.1, hnext.2⟩
    | finished st2 => rw [hs] at h; exact absurd h (by simp)
    | cycleExit id st2 => rw [hs] at h; exact absurd h (by simp)
    | badDepExit st2 => rw [hs] at h; exact absurd h (by simp)

/-- C4: over one complete run, at most one manifest rewrite targets
the root manifest (the rootRw event): such an event is emitted only
when the stack becomes empty, after which no further event occurs.
At the pop of a bottom frame whose identity is not cached, the root
rewrite event occurs exactly when the frame's induced map is present
(and it is then nonempty); along any run from the initial state the
bottom frame is always the workspace current package and its identity
is never cached, so the condition reduces to: the root manifest is
rewritten exactly when the root frame pops with a nonempty induced
map. -/
theorem c4_root_rewrite :
    (∀ (env : Env) (fuel : Nat) (st : WalkState), rootCount (runE env fuel st).2 ≤ 1) ∧
    (∀ (env : Env) (cache : List Nat) (fr : Frame),
      fr.deps = [] → fr.pkg ∉ cache →
      stepEvent env cache [fr] = Option.map Event.rootRw fr.updated) ∧
    (∀ (env : Env) (fs0 : FS) (n : Nat) (cache : List Nat) (fr : Frame) (fs : FS),
      stepIter env n (initState env fs0) = some ⟨cache, [fr], fs⟩ → fr.deps = [] →
      stepEvent env cache [fr] = Option.map Event.rootRw fr.updated ∧
      fr.pkg = env.rootId ∧ (∀ m, fr.updated = some m → m ≠ [])) := by
  refine ⟨rootCount_le_one, stepEvent_bottom, ?_⟩
  intro env fs0 n cache fr fs h hdeps
  have hinit : distinctIds (initState env fs0).stack ∧ rootBottom env (initState env fs0) ∧
      updNonempty (initState env fs0) := by
    refine ⟨by simp [initState, distinctIds], ⟨?_, ?_⟩, ?_⟩
    · intro p hp
      simp [initState, bottomPkg] at hp
      exact hp.symm
    · intro hne
      simp [initState]
    · intro fr2 hfr2 m hm
      simp [initState] at hfr2
      rw [hfr2] at hm
      exact absurd hm (by simp)
  obtain ⟨hd, hb, hu⟩ := stepIter_inv_gen env n _ _ h hinit
  have hpk : fr.pkg = env.rootId := hb.1 fr.pkg (by simp [bottomPkg])
  have hc : fr.pkg ∉ cache := by
    rw [hpk]
    exact hb.2 (by simp)
  exact ⟨stepEvent_bottom env cache fr hdeps hc, hpk,
    fun m hm => hu fr (by simp) m hm⟩

/-- Witness for c4_root_rewrite: the S3 run, whose root frame pops at
step six with an induced map holding local paths for B and C. -/
theorem c4_root_rewrite_witness :
    rootCount (runE envS3 30 (initState envS3 (fsA envS3))).2 ≤ 1 ∧
    (stepIter envS3 6 (initState envS3 (fsA envS3)) = some ⟨[2, 1],
      [⟨0, [], some [("B", .path "cargo-patch/B"), ("C", .path "cargo-patch/C")]⟩],
      ⟨[("B", .table [("dependencies",
          .table [("D", .table [("git", .str "https://x/d")])])]),
        ("C", .table [("dependencies",
          .table [("D", .table [("git", .str "https://x/d")])])])],
       (envS3.pkgs 0).manifest⟩⟩ ∧
     stepEvent envS3 [2, 1]
       [⟨0, [], some [("B", .path "cargo-patch/B"), ("C", .path "cargo-patch/C")]⟩] =
       Option.map Event.rootRw
         (some [("B", .path "cargo-patch/B"), ("C", .path "cargo-patch/C")]) ∧
     (⟨0, [], some [("B", .path "cargo-patch/B"), ("C", .path "cargo-patch/C")]⟩ :
       Frame).pkg = envS3.rootId) := by
  refine ⟨c4_root_rewrite.1 envS3 30 (initState envS3 (fsA envS3)), rfl, ?_, ?_⟩
  · exact (c4_root_rewrite.2.2 envS3 (fsA envS3) 6 [2, 1]
      ⟨0, [], some [("B", .path "cargo-patch/B"), ("C", .path "cargo-patch/C")]⟩
      ⟨[("B", .table [("dependencies",
          .table [("D", .table [("git", .str "https://x/d")])])]),
        ("C", .table [("dependencies",
          .table [("D", .table [("git", .str "https://x/d")])])])],
       (envS3.pkgs 0).manifest⟩ rfl rfl).1
  · exact (c4_root_rewrite.2.2 envS3 (fsA envS3) 6 [2, 1]
      ⟨0, [], some [("B", .path "cargo-patch/B"), ("C", .path "cargo-patch/C")]⟩
      ⟨[("B", .table [("dependencies",
          .table [("D", .table [("git", .str "https://x/d")])])]),
        ("C", .table [("dependencies",
          .table [("D", .table [("git", .str "https://x/d")])])])],
       (envS3.pkgs 0).manifest⟩ rfl rfl).2.1

/-! ## Algebra of the rewrite, toward idempotence -/

theorem aremove_append {α : Type} (k : String) (a b : List (String × α)) :
    aremove k (a ++ b) = aremove k a ++ aremove k b := by
  simp [aremove, List.filter_append]

theorem filt3_append (a b : List (String × TomlVal)) :
    filt3 (a ++ b) = filt3 a ++ filt3 b := by
  simp [filt3, aremove_append]

theorem aremove_aremove {α : Type} (k k2 : String) (m : List (String × α)) :
    aremove k (aremove k2 m) = aremove k2 (aremove k m) := by
  simp [aremove, List.filter_filter]
  congr 1
  funext p
  rw [Bool.and_comm]

theorem aremove_idem {α : Type} (k : String) (m : List (String × α)) :
    aremove k (aremove k m) = aremove k m := by
  simp [aremove, List.filter_filter]

theorem filt3_cons_ne (k : String) (v : TomlVal) (rest : List (String × TomlVal))
    (h1 : k ≠ "version") (h2 : k ≠ "path") (h3 : k ≠ "git") :
    filt3 ((k, v) :: rest) = (k, v) :: filt3 rest := by
  unfold filt3
  rw [aremove_cons_ne "version" k v rest h1, aremove_cons_ne "path" k v _ h2,
    aremove_cons_ne "git" k v _ h3]

theorem filt3_cons_three (k : String) (v : TomlVal) (rest : List (String × TomlVal))
    (h : k = "version" ∨ k = "path" ∨ k = "git") :
    filt3 ((k, v) :: rest) = filt3 rest := by
  unfold filt3
  rcases h with rfl | rfl | rfl
  · rw [aremove_cons_self "version" "version" v rest rfl]
  · rw [aremove_cons_ne "version" "path" v rest (by decide),
      aremove_cons_self "path" "path" v _ rfl]
  · rw [aremove_cons_ne "version" "git" v rest (by decide),
      aremove_cons_ne "path" "git" v _ (by decide),
      aremove_cons_self "git" "git" v _ rfl]

theorem filt3_idem (t : List (String × TomlVal)) : filt3 (filt3 t) = filt3 t := by
  induction t with
  | nil => rfl
  | cons p rest ih =>
    obtain ⟨k, v⟩ := p
    by_cases h : k = "version" ∨ k = "path" ∨ k = "git"
    · rw [filt3_cons_three k v rest h, ih]
    · push_neg at h
      rw [filt3_cons_ne k v rest h.1 h.2.1 h.2.2,
        filt3_cons_ne k v (filt3 rest) h.1 h.2.1 h.2.2, ih]

theorem filt3_encKV (v : PackagePath) : filt3 [encKV v] = [] := by
  cases v <;> rfl

theorem normLast_absorb (v0 : TomlVal) (w1 w2 : PackagePath) :
    normLast (normLast v0 w1) w2 = normLast v0 w2 := by
  unfold normLast sib
  rw [filt3_append, filt3_idem, filt3_encKV, List.append_nil]

theorem normalizeDep_eq_normLast (dep : TomlVal) (v : PackagePath) (e : TomlVal)
    (h : normalizeDep dep v = some e) : e = normLast dep v := by
  cases dep with
  | str s => exact (Option.some.inj h).symm
  | table t => exact (Option.some.inj h).symm
  | other n => exact absurd h (by simp [normalizeDep])

theorem normalizeDep_normLast (v0 : TomlVal) (w1 w2 : PackagePath) :
    normalizeDep (normLast v0 w1) w2 = some (normLast v0 w2) := by
  unfold normLast normalizeDep change_path
  show some (TomlVal.table (filt3 (filt3 (sib v0) ++ [encKV w1]) ++ [encKV w2])) = _
  rw [filt3_append, filt3_idem, filt3_encKV, List.append_nil]

theorem aset_aset {α : Type} (k : String) (v1 v2 : α) (m : List (String × α)) :
    aset k v2 (aset k v1 m) = aset k v2 m := by
  induction m with
  | nil => rfl
  | cons p rest ih =>
    obtain ⟨k0, w⟩ := p
    by_cases h : k0 = k
    · rw [aset_cons_self k v1 k0 w rest h, aset_cons_self k v2 k v1 (aset k v1 rest) rfl,
        aset_cons_self k v2 k0 w rest h, ih]
    · rw [aset_cons_ne k v1 k0 w rest h, aset_cons_ne k v2 k0 w (aset k v1 rest) h,
        aset_cons_ne k v2 k0 w rest h, ih]

theorem aset_comm {α : Type} (k k2 : String) (v v2 : α) (m : List (String × α))
    (h : k ≠ k2) : aset k v (aset k2 v2 m) = aset k2 v2 (aset k v m) := by
  induction m with
  | nil => rfl
  | cons p rest ih =>
    obtain ⟨k0, w⟩ := p
    by_cases h0 : k0 = k
    · have h02 : k0 ≠ k2 := fun he => h (h0.symm.trans he)
      have hk2 : k ≠ k2 := h
      rw [aset_cons_ne k2 v2 k0 w rest h02, aset_cons_self k v k0 w (aset k2 v2 rest) h0,
        aset_cons_self k v k0 w rest h0, aset_cons_ne k2 v2 k v (aset k v rest) hk2, ih]
    · by_cases h02 : k0 = k2
      · rw [aset_cons_self k2 v2 k0 w rest h02, aset_cons_ne k v k2 v2 (aset k2 v2 rest) (Ne.symm h),
          aset_cons_ne k v k0 w rest h0, aset_cons_self k2 v2 k0 w (aset k v rest) h02, ih]
      · rw [aset_cons_ne k2 v2 k0 w rest h02, aset_cons_ne k v k0 w (aset k2 v2 rest) h0,
          aset_cons_ne k v k0 w rest h0, aset_cons_ne k2 v2 k0 w (aset k v rest) h02, ih]

theorem alookup_isSome_of_mem {α : Type} (p : String × α) (t : List (String × α))
    (h : p ∈ t) : (alookup p.1 t).isSome := by
  induction t with
  | nil => simp at h
  | cons q rest ih =>
    obtain ⟨k0, w⟩ := q
    rcases List.mem_cons.1 h with rfl | hm
    · simp [alookup]
    · rw [alookup_cons]
      by_cases he : k0 = p.1
      · simp [he]
      · simp [he, ih hm]

theorem alookup_eq_none_iff {α : Type} (k : String) (t : List (String × α)) :
    alookup k t = none ↔ k ∉ t.map Prod.fst := by
  induction t with
  | nil => simp [alookup]
  | cons p rest ih =>
    obtain ⟨k0, w⟩ := p
    rw [alookup_cons]
    by_cases he : k0 = k
    · simp [he]
    · simp [he, ih, Ne.symm he]

theorem getLast?_cons_general {α : Type} (a : α) (l : List α) :
    (a :: l).getLast? = if l.getLast?.isSome then l.getLast? else some a := by
  cases l with
  | nil => rfl
  | cons b bs =>
    rw [List.getLast?_cons_cons]
    have hs : (b :: bs).getLast?.isSome := List.getLast?_isSome.2 (by simp)
    rw [if_pos hs]

theorem lastValFor_cons_ne (k k0 : String) (v : PackagePath)
    (rest : List (String × PackagePath)) (hk : k0 ≠ k) :
    lastValFor k ((k0, v) :: rest) = lastValFor k rest := by
  simp [lastValFor, mvalsFor, List.filter_cons, hk]

theorem lastValFor_cons_self (k : String) (v : PackagePath)
    (rest : List (String × PackagePath)) :
    lastValFor k ((k, v) :: rest) =
      if (lastValFor k rest).isSome then lastValFor k rest else some v := by
  unfold lastValFor mvalsFor
  rw [List.filter_cons]
  simp only [beq_self_eq_true, if_pos, List.map_cons]
  exact getLast?_cons_general v (List.map Prod.snd (List.filter (fun p => p.1 == k) rest))

theorem applyReplaces_cons_none (t : List (String × TomlVal)) (k : String)
    (v : PackagePath) (rest : List (String × PackagePath)) (hl : alookup k t = none) :
    applyReplaces t ((k, v) :: rest) = applyReplaces t rest := by
  simp [applyReplaces, hl]

theorem applyReplaces_cons_fail (t : List (String × TomlVal)) (k : String)
    (v : PackagePath) (rest : List (String × PackagePath)) (dep : TomlVal)
    (hl : alookup k t = some dep) (hn : normalizeDep dep v = none) :
    applyReplaces t ((k, v) :: rest) = none := by
  simp [applyReplaces, hl, hn]

theorem applyReplaces_cons_some (t : List (String × TomlVal)) (k : String)
    (v : PackagePath) (rest : List (String × PackagePath)) (dep dep2 : TomlVal)
    (hl : alookup k t = some dep) (hn : normalizeDep dep v = some dep2) :
    applyReplaces t ((k, v) :: rest) = applyReplaces (aset k dep2 t) rest := by
  simp [applyReplaces, hl, hn]

theorem applyReplaces_append (t : List (String × TomlVal))
    (m1 m2 : List (String × PackagePath)) :
    applyReplaces t (m1 ++ m2) =
      match applyReplaces t m1 with
      | none => none
      | some t1 => applyReplaces t1 m2 := by
  induction m1 generalizing t with
  | nil => simp [applyReplaces]
  | cons p rest ih =>
    obtain ⟨k, v⟩ := p
    rw [List.cons_append]
    cases hl : alookup k t with
    | none =>
      rw [applyReplaces_cons_none t k v _ hl, applyReplaces_cons_none t k v rest hl, ih]
    | some dep =>
      cases hn : normalizeDep dep v with
      | none =>
        rw [applyReplaces_cons_fail t k v _ dep hl hn, applyReplaces_cons_fail t k v rest dep hl hn]
      | some dep2 =>
        rw [applyReplaces_cons_some t k v _ dep dep2 hl hn,
          applyReplaces_cons_some t k v rest dep dep2 hl hn, ih]

/-- Lookup-level characterization of the table loop: a touched key
holds the normalized entry built from the original first binding and
the last replacement value; an untouched key is unchanged. -/
theorem applyReplaces_alookup (m : List (String × PackagePath)) (t u : List (String × TomlVal))
    (h : applyReplaces t m = some u) (k : String) :
    alookup k u =
      match lastValFor k m, alookup k t with
      | some w, some v0 => some (normLast v0 w)
      | _, _ => alookup k t := by
  induction m generalizing t u with
  | nil =>
    have h2 := Option.some.inj h
    subst h2
    rfl
  | cons p rest ih =>
    obtain ⟨k0, v⟩ := p
    cases hl : alookup k0 t with
    | none =>
      rw [applyReplaces_cons_none t k0 v rest hl] at h
      rw [ih t u h]
      by_cases hk : k0 = k
      · subst hk
        rw [hl, lastValFor_cons_self]
        cases h1 : lastValFor k0 rest with
        | none => rw [if_neg (by simp)]
        | some w => rw [if_pos (by simp)]
      · rw [lastValFor_cons_ne k k0 v rest hk]
    | some dep =>
      cases hn : normalizeDep dep v with
      | none =>
        rw [applyReplaces_cons_fail t k0 v rest dep hl hn] at h
        exact absurd h (by simp)
      | some dep2 =>
        rw [applyReplaces_cons_some t k0 v rest dep dep2 hl hn] at h
        have hdep2 : dep2 = normLast dep v := normalizeDep_eq_normLast dep v dep2 hn
        rw [ih _ u h]
        by_cases hk : k0 = k
        · subst hk
          rw [alookup_aset, if_pos rfl, hl, lastValFor_cons_self]
          cases hlast : lastValFor k0 rest with
          | none =>
            rw [if_neg (by simp)]
            simp [hdep2]
          | some w =>
            rw [if_pos (by simp)]
            simp [hdep2, normLast_absorb]
        · rw [alookup_aset, if_neg hk, lastValFor_cons_ne k k0 v rest hk]

theorem map_aset {α β : Type} (k : String) (v : α) (t : List (String × α))
    (f : (String × α) → β) :
    (aset k v t).map f = t.map (fun p => f (if p.1 = k then (k, v) else p)) := by
  unfold aset
  rw [List.map_map]
  rfl

/-- Structural characterization of the table loop: the resulting table
is the original one with every binding of a touched key replaced by
the normalized entry built from the first original binding of that
key and the last replacement value. -/
theorem applyReplaces_char (m : List (String × PackagePath)) (t u : List (String × TomlVal))
    (h : applyReplaces t m = some u) :
    u = t.map (fun p =>
      match lastValFor p.1 m, alookup p.1 t with
      | some w, some v0 => (p.1, normLast v0 w)
      | _, _ => p) := by
  induction m generalizing t u with
  | nil =>
    have h2 := Option.some.inj h
    subst h2
    have hid : ∀ p ∈ t, (match lastValFor p.1 [], alookup p.1 t with
        | some w, some v0 => (p.1, normLast v0 w)
        | _, _ => p) = (fun p => p) p := fun p _ => rfl
    rw [List.map_congr_left hid]
    simp
  | cons q rest ih =>
    obtain ⟨k0, v⟩ := q
    cases hl : alookup k0 t with
    | none =>
      rw [applyReplaces_cons_none t k0 v rest hl] at h
      rw [ih t u h]
      refine List.map_congr_left ?_
      intro p hp
      by_cases hpk : p.1 = k0
      · rw [hpk, hl]
        cases lastValFor k0 rest <;> cases lastValFor k0 ((k0, v) :: rest) <;> rfl
      · rw [lastValFor_cons_ne p.1 k0 v rest (fun he => hpk he.symm)]
    | some dep =>
      cases hn : normalizeDep dep v with
      | none =>
        rw [applyReplaces_cons_fail t k0 v rest dep hl hn] at h
        exact absurd h (by simp)
      | some dep2 =>
        rw [applyReplaces_cons_some t k0 v rest dep dep2 hl hn] at h
        have hdep2 : dep2 = normLast dep v := normalizeDep_eq_normLast dep v dep2 hn
        rw [ih _ u h, map_aset]
        refine List.map_congr_left ?_
        intro p hp
        by_cases hpk : p.1 = k0
        · rw [if_pos hpk, hpk]
          show (match lastValFor k0 rest, alookup k0 (aset k0 dep2 t) with
            | some w, some v0 => (k0, normLast v0 w)
            | _, _ => (k0, dep2)) = _
          rw [alookup_aset, if_pos rfl, hl]
          simp only [Option.map_some']
          rw [lastValFor_cons_self]
          cases hlast : lastValFor k0 rest with
          | none =>
            rw [if_neg (by simp)]
            simp [hdep2]
          | some w =>
            rw [if_pos (by simp)]
            simp [hdep2, normLast_absorb]
        · rw [if_neg hpk]
          show (match lastValFor p.1 rest, alookup p.1 (aset k0 dep2 t) with
            | some w, some v0 => (p.1, normLast v0 w)
            | _, _ => p) = _
          rw [alookup_aset, if_neg (fun he => hpk he.symm),
            lastValFor_cons_ne p.1 k0 v rest (fun he => hpk he.symm)]

theorem applyReplaces_keys (m : List (String × PackagePath)) (t u : List (String × TomlVal))
    (h : applyReplaces t m = some u) : u.map Prod.fst = t.map Prod.fst := by
  rw [applyReplaces_char m t u h, List.map_map]
  refine List.map_congr_left ?_
  intro p hp
  simp only [Function.comp]
  cases lastValFor p.1 m <;> cases alookup p.1 t <;> rfl

theorem lastValFor_isSome_cons (k k0 : String) (v : PackagePath)
    (rest : List (String × PackagePath)) (h : (lastValFor k rest).isSome) :
    (lastValFor k ((k0, v) :: rest)).isSome := by
  by_cases hk : k0 = k
  · subst hk
    rw [lastValFor_cons_self, if_pos h]
    exact h
  · rw [lastValFor_cons_ne k k0 v rest hk]
    exact h

theorem lastValFor_head_isSome (k0 : String) (v : PackagePath)
    (rest : List (String × PackagePath)) :
    (lastValFor k0 ((k0, v) :: rest)).isSome := by
  rw [lastValFor_cons_self]
  cases h : (lastValFor k0 rest).isSome
  · rw [if_neg (by simp [h])]
    rfl
  · rw [if_pos (by simp [h])]
    exact h

/-- The table loop succeeds as soon as every touched key holds a
string or table entry. -/
theorem applyReplaces_isSome (m : List (String × PackagePath)) (t : List (String × TomlVal))
    (hgood : ∀ k v0, (lastValFor k m).isSome → alookup k t = some v0 →
      ∀ i, v0 ≠ .other i) :
    (applyReplaces t m).isSome := by
  induction m generalizing t with
  | nil => simp [applyReplaces]
  | cons q rest ih =>
    obtain ⟨k0, v⟩ := q
    cases hl : alookup k0 t with
    | none =>
      rw [applyReplaces_cons_none t k0 v rest hl]
      exact ih t (fun k v0 hls hlk i =>
        hgood k v0 (lastValFor_isSome_cons k k0 v rest hls) hlk i)
    | some dep =>
      have hdep : ∀ i, dep ≠ .other i :=
        hgood k0 dep (lastValFor_head_isSome k0 v rest) hl
      have hnorm : ∃ dep2, normalizeDep dep v = some dep2 := by
        cases dep with
        | str s => exact ⟨_, rfl⟩
        | table tt => exact ⟨_, rfl⟩
        | other i => exact absurd rfl (hdep i)
      obtain ⟨dep2, hn⟩ := hnorm
      rw [applyReplaces_cons_some t k0 v rest dep dep2 hl hn]
      apply ih
      intro k v0 hls hlk i
      by_cases hk : k = k0
      · subst hk
        rw [alookup_aset, if_pos rfl, hl] at hlk
        simp only [Option.map_some'] at hlk
        have hv0 := Option.some.inj hlk
        rw [← hv0, normalizeDep_eq_normLast dep v dep2 hn]
        intro he
        exact TomlVal.noConfusion he
      · rw [alookup_aset, if_neg (fun he => hk he.symm)] at hlk
        exact hgood k v0 (lastValFor_isSome_cons k k0 v rest hls) hlk i

/-- Idempotence of the table loop: re-rewriting an already rewritten
table with the same substitutions succeeds and changes nothing. -/
theorem applyReplaces_idem (m : List (String × PackagePath)) (t u : List (String × TomlVal))
    (h : applyReplaces t m = some u) : applyReplaces u m = some u := by
  have hsome : (applyReplaces u m).isSome := by
    apply applyReplaces_isSome
    intro k v0 hls hlk i
    have hchar := applyReplaces_alookup m t u h k
    obtain ⟨w, hw⟩ := Option.isSome_iff_exists.1 hls
    rw [hw] at hchar
    cases hl0 : alookup k t with
    | none =>
      rw [hl0] at hchar
      rw [hchar] at hlk
      exact Option.noConfusion hlk
    | some vt =>
      rw [hl0] at hchar
      rw [hlk] at hchar
      have hv0 := Option.some.inj hchar
      rw [hv0]
      unfold normLast
      intro he
      exact TomlVal.noConfusion he
  obtain ⟨u2, hu2⟩ := Option.isSome_iff_exists.1 hsome
  rw [hu2]
  have hc1 := applyReplaces_char m t u h
  have hc2 := applyReplaces_char m u u2 hu2
  have hu2u : u2 = u := by
    rw [hc2]
    have hpt : ∀ q ∈ u, (match lastValFor q.1 m, alookup q.1 u with
        | some w, some v0 => (q.1, normLast v0 w)
        | _, _ => q) = (fun q => q) q := by
      intro q hq
      rw [hc1] at hq
      obtain ⟨p, hp, hq2⟩ := List.mem_map.1 hq
      subst hq2
      have hchar := applyReplaces_alookup m t u h p.1
      cases hlast : lastValFor p.1 m with
      | none =>
        cases hlk : alookup p.1 t with
        | none =>
          show (match lastValFor p.1 m, alookup p.1 u with
            | some w, some v0 => (p.1, normLast v0 w)
            | _, _ => p) = p
          rw [hlast]
        | some vt =>
          show (match lastValFor p.1 m, alookup p.1 u with
            | some w, some v0 => (p.1, normLast v0 w)
            | _, _ => p) = p
          rw [hlast]
      | some w =>
        cases hlk : alookup p.1 t with
        | none =>
          rw [hlast, hlk] at hchar
          have hchar2 : alookup p.1 u = none := hchar
          show (match lastValFor p.1 m, alookup p.1 u with
            | some w2, some v0 => (p.1, normLast v0 w2)
            | _, _ => p) = p
          rw [hlast, hchar2]
        | some vt =>
          rw [hlast, hlk] at hchar
          have hchar2 : alookup p.1 u = some (normLast vt w) := hchar
          show (match lastValFor p.1 m, alookup p.1 u with
            | some w2, some v0 => (p.1, normLast v0 w2)
            | _, _ => (p.1, normLast vt w)) = (p.1, normLast vt w)
          rw [hlast, hchar2]
          show (p.1, normLast (normLast vt w) w) = (p.1, normLast vt w)
          rw [normLast_absorb]
    rw [List.map_congr_left hpt]
    simp
  rw [hu2u]

/-! ## C9: composition and idempotence of the manifest rewrite -/

theorem alookup_mem {α : Type} (k : String) (v : α) (t : List (String × α))
    (h : alookup k t = some v) : (k, v) ∈ t := by
  induction t with
  | nil => exact absurd h (by simp [alookup])
  | cons p rest ih =>
    obtain ⟨k0, w⟩ := p
    rw [alookup_cons] at h
    by_cases he : k0 = k
    · rw [if_pos he] at h
      cases h
      subst he
      exact List.mem_cons_self _ _
    · rw [if_neg he] at h
      exact List.mem_cons_of_mem _ (ih h)

theorem alookup_of_allAt {α : Type} (k : String) (d : α) (t : List (String × α))
    (hall : allAt k d t) (hs : (alookup k t).isSome) : alookup k t = some d := by
  obtain ⟨v, hv⟩ := Option.isSome_iff_exists.1 hs
  rw [hv]
  exact congrArg some (hall (k, v) (alookup_mem k v t hv) rfl)

theorem allAt_aset {α : Type} (k : String) (d : α) (t : List (String × α)) :
    allAt k d (aset k d t) := by
  intro p hp hk
  obtain ⟨q, _, hpe⟩ := List.mem_map.1 hp
  by_cases h : q.1 = k
  · rw [if_pos h] at hpe
    rw [← hpe]
  · rw [if_neg h] at hpe
    rw [← hpe] at hk
    exact absurd hk h

theorem allAt_aset_ne {α : Type} (k k2 : String) (d v : α) (t : List (String × α))
    (hne : k2 ≠ k) (hall : allAt k d t) : allAt k d (aset k2 v t) := by
  intro p hp hk
  obtain ⟨q, hq, hpe⟩ := List.mem_map.1 hp
  by_cases h : q.1 = k2
  · rw [if_pos h] at hpe
    rw [← hpe] at hk
    exact absurd hk hne
  · rw [if_neg h] at hpe
    rw [← hpe] at hk ⊢
    exact hall q hq hk

theorem aset_id_of_allAt {α : Type} (k : String) (d : α) (t : List (String × α))
    (hall : allAt k d t) : aset k d t = t := by
  show t.map (fun p => if p.1 = k then (k, d) else p) = t
  conv_rhs => rw [← List.map_id t]
  refine List.map_congr_left ?_
  intro p hp
  by_cases h : p.1 = k
  · rw [if_pos h, id_eq, ← hall p hp h, ← h]
  · rw [if_neg h, id_eq]

theorem rewriteDeps_append (v : TomlVal) (m1 m2 : List (String × PackagePath)) :
    rewriteDeps v (m1 ++ m2) = (rewriteDeps v m1).bind (fun v1 => rewriteDeps v1 m2) := by
  cases v with
  | table t =>
    show (applyReplaces t (m1 ++ m2)).map TomlVal.table =
      ((applyReplaces t m1).map TomlVal.table).bind (fun v1 => rewriteDeps v1 m2)
    rw [applyReplaces_append]
    cases h1 : applyReplaces t m1 <;> rfl
  | str s => rfl
  | other i => rfl

theorem rewriteDeps_idem (m : List (String × PackagePath)) (v u : TomlVal)
    (h : rewriteDeps v m = some u) : rewriteDeps u m = some u := by
  cases v with
  | table t =>
    have h2 : (applyReplaces t m).map TomlVal.table = some u := h
    cases h1 : applyReplaces t m with
    | none => rw [h1] at h2; cases h2
    | some t1 =>
      rw [h1, Option.map_some'] at h2
      cases h2
      show (applyReplaces t1 m).map TomlVal.table = some (TomlVal.table t1)
      rw [applyReplaces_idem m t t1 h1]
      rfl
  | str s =>
    have h2 : some (TomlVal.str s) = some u := h
    cases h2
    rfl
  | other i =>
    have h2 : some (TomlVal.other i) = some u := h
    cases h2
    rfl

theorem processTable_none (tn : String) (m : List (String × PackagePath))
    (top : List (String × TomlVal)) (hl : alookup tn top = none) :
    processTable tn m top = some top := by
  unfold processTable
  rw [hl]

theorem processTable_abort (tn : String) (m : List (String × PackagePath))
    (top : List (String × TomlVal)) (deps : TomlVal) (hl : alookup tn top = some deps)
    (hr : rewriteDeps deps m = none) : processTable tn m top = none := by
  unfold processTable
  rw [hl]
  show (match rewriteDeps deps m with
    | none => none
    | some d => some (aset tn d top)) = none
  rw [hr]

theorem processTable_set (tn : String) (m : List (String × PackagePath))
    (top : List (String × TomlVal)) (deps d : TomlVal) (hl : alookup tn top = some deps)
    (hr : rewriteDeps deps m = some d) :
    processTable tn m top = some (aset tn d top) := by
  unfold processTable
  rw [hl]
  show (match rewriteDeps deps m with
    | none => none
    | some d2 => some (aset tn d2 top)) = some (aset tn d top)
  rw [hr]

theorem processTable_seq (tn : String) (m1 m2 : List (String × PackagePath))
    (top : List (String × TomlVal)) :
    processTable tn (m1 ++ m2) top = (processTable tn m1 top).bind (processTable tn m2) := by
  cases hl : alookup tn top with
  | none =>
    rw [processTable_none tn (m1 ++ m2) top hl, processTable_none tn m1 top hl]
    show some top = processTable tn m2 top
    rw [processTable_none tn m2 top hl]
  | some deps =>
    cases h1 : rewriteDeps deps m1 with
    | none =>
      have hr : rewriteDeps deps (m1 ++ m2) = none := by
        rw [rewriteDeps_append, h1]
        rfl
      rw [processTable_abort tn (m1 ++ m2) top deps hl hr,
        processTable_abort tn m1 top deps hl h1]
      rfl
    | some d1 =>
      have hl2 : alookup tn (aset tn d1 top) = some d1 := by
        simp [alookup_aset, hl]
      rw [processTable_set tn m1 top deps d1 hl h1]
      cases h2 : rewriteDeps d1 m2 with
      | none =>
        have hr : rewriteDeps deps (m1 ++ m2) = none := by
          rw [rewriteDeps_append, h1]
          show rewriteDeps d1 m2 = none
          exact h2
        rw [processTable_abort tn (m1 ++ m2) top deps hl hr]
        show (none : Option (List (String × TomlVal))) = processTable tn m2 (aset tn d1 top)
        rw [processTable_abort tn m2 (aset tn d1 top) d1 hl2 h2]
      | some d2 =>
        have hr : rewriteDeps deps (m1 ++ m2) = some d2 := by
          rw [rewriteDeps_append, h1]
          show rewriteDeps d1 m2 = some d2
          exact h2
        rw [processTable_set tn (m1 ++ m2) top deps d2 hl hr]
        show some (aset tn d2 top) = processTable tn m2 (aset tn d1 top)
        rw [processTable_set tn m2 (aset tn d1 top) d1 d2 hl2 h2, aset_aset]

theorem processTable_idem (tn : String) (m : List (String × PackagePath))
    (top u : List (String × TomlVal)) (h : processTable tn m top = some u) :
    processTable tn m u = some u := by
  cases hl : alookup tn top with
  | none =>
    rw [processTable_none tn m top hl] at h
    cases h
    exact processTable_none tn m top hl
  | some deps =>
    cases hr : rewriteDeps deps m with
    | none =>
      rw [processTable_abort tn m top deps hl hr] at h
      cases h
    | some d =>
      rw [processTable_set tn m top deps d hl hr] at h
      cases h
      have hl2 : alookup tn (aset tn d top) = some d := by
        simp [alookup_aset, hl]
      rw [processTable_set tn m (aset tn d top) d d hl2 (rewriteDeps_idem m deps d hr),
        aset_aset]

theorem processTable_comm (tn tn2 : String) (m m2 : List (String × PackagePath))
    (top : List (String × TomlVal)) (hne : tn ≠ tn2) :
    (processTable tn m top).bind (processTable tn2 m2) =
      (processTable tn2 m2 top).bind (processTable tn m) := by
  have hne2 : tn2 ≠ tn := fun he => hne he.symm
  cases hl : alookup tn top with
  | none =>
    cases hl2 : alookup tn2 top with
    | none =>
      rw [processTable_none tn m top hl, processTable_none tn2 m2 top hl2]
      show processTable tn2 m2 top = processTable tn m top
      rw [processTable_none tn m top hl, processTable_none tn2 m2 top hl2]
    | some deps2 =>
      rw [processTable_none tn m top hl]
      show processTable tn2 m2 top = (processTable tn2 m2 top).bind (processTable tn m)
      cases hr2 : rewriteDeps deps2 m2 with
      | none =>
        rw [processTable_abort tn2 m2 top deps2 hl2 hr2]
        rfl
      | some d2 =>
        rw [processTable_set tn2 m2 top deps2 d2 hl2 hr2]
        show some (aset tn2 d2 top) = processTable tn m (aset tn2 d2 top)
        have hla : alookup tn (aset tn2 d2 top) = none := by
          simp [alookup_aset, hne2, hl]
        rw [processTable_none tn m (aset tn2 d2 top) hla]
  | some deps =>
    cases hl2 : alookup tn2 top with
    | none =>
      rw [processTable_none tn2 m2 top hl2]
      cases hr : rewriteDeps deps m with
      | none =>
        rw [processTable_abort tn m top deps hl hr]
        show (none : Option (List (String × TomlVal))) = processTable tn m top
        rw [processTable_abort tn m top deps hl hr]
      | some d =>
        rw [processTable_set tn m top deps d hl hr]
        have hlb : alookup tn2 (aset tn d top) = none := by
          simp [alookup_aset, hne, hl2]
        show processTable tn2 m2 (aset tn d top) = processTable tn m top
        rw [processTable_none tn2 m2 (aset tn d top) hlb,
          processTable_set tn m top deps d hl hr]
    | some deps2 =>
      cases hr : rewriteDeps deps m with
      | none =>
        rw [processTable_abort tn m top deps hl hr]
        cases hr2 : rewriteDeps deps2 m2 with
        | none =>
          rw [processTable_abort tn2 m2 top deps2 hl2 hr2]
          rfl
        | some d2 =>
          rw [processTable_set tn2 m2 top deps2 d2 hl2 hr2]
          show (none : Option (List (String × TomlVal))) =
            processTable tn m (aset tn2 d2 top)
          have hla : alookup tn (aset tn2 d2 top) = some deps := by
            simp [alookup_aset, hne2, hl]
          rw [processTable_abort tn m (aset tn2 d2 top) deps hla hr]
      | some d =>
        rw [processTable_set tn m top deps d hl hr]
        cases hr2 : rewriteDeps deps2 m2 with
        | none =>
          rw [processTable_abort tn2 m2 top deps2 hl2 hr2]
          show processTable tn2 m2 (aset tn d top) = (none : Option (List (String × TomlVal)))
          have hlb : alookup tn2 (aset tn d top) = some deps2 := by
            simp [alookup_aset, hne, hl2]
          rw [processTable_abort tn2 m2 (aset tn d top) deps2 hlb hr2]
        | some d2 =>
          rw [processTable_set tn2 m2 top deps2 d2 hl2 hr2]
          show processTable tn2 m2 (aset tn d top) = processTable tn m (aset tn2 d2 top)
          have hlb : alookup tn2 (aset tn d top) = some deps2 := by
            simp [alookup_aset, hne, hl2]
          have hla : alookup tn (aset tn2 d2 top) = some deps := by
            simp [alookup_aset, hne2, hl]
          rw [processTable_set tn2 m2 (aset tn d top) deps2 d2 hlb hr2,
            processTable_set tn m (aset tn2 d2 top) deps d hla hr,
            aset_comm tn2 tn d2 d top hne2]

theorem processTable_keys (tn : String) (m : List (String × PackagePath))
    (top u : List (String × TomlVal)) (h : processTable tn m top = some u) :
    u.map Prod.fst = top.map Prod.fst := by
  cases hl : alookup tn top with
  | none =>
    rw [processTable_none tn m top hl] at h
    cases h
    rfl
  | some deps =>
    cases hr : rewriteDeps deps m with
    | none =>
      rw [processTable_abort tn m top deps hl hr] at h
      cases h
    | some d =>
      rw [processTable_set tn m top deps d hl hr] at h
      cases h
      exact aset_keys tn d top

theorem processTable_allAt (tn tn2 : String) (d : TomlVal)
    (m : List (String × PackagePath)) (top u : List (String × TomlVal))
    (hne : tn2 ≠ tn) (h : processTable tn2 m top = some u) (hall : allAt tn d top) :
    allAt tn d u := by
  cases hl : alookup tn2 top with
  | none =>
    rw [processTable_none tn2 m top hl] at h
    cases h
    exact hall
  | some deps =>
    cases hr : rewriteDeps deps m with
    | none =>
      rw [processTable_abort tn2 m top deps hl hr] at h
      cases h
    | some d2 =>
      rw [processTable_set tn2 m top deps d2 hl hr] at h
      cases h
      exact allAt_aset_ne tn tn2 d d2 top hne hall

theorem rewriteTables_cons (m : List (String × PackagePath)) (tn : String)
    (ns : List String) (top : List (String × TomlVal)) :
    rewriteTables m (tn :: ns) top = (processTable tn m top).bind (rewriteTables m ns) := by
  show (match processTable tn m top with
    | none => none
    | some top2 => rewriteTables m ns top2) = _
  cases processTable tn m top <;> rfl

theorem rewriteTables_comm (m m2 : List (String × PackagePath)) (tn : String) :
    ∀ ns : List String, tn ∉ ns → ∀ top,
      (rewriteTables m ns top).bind (processTable tn m2) =
        (processTable tn m2 top).bind (rewriteTables m ns) := by
  intro ns
  induction ns with
  | nil =>
    intro _ top
    show processTable tn m2 top = (processTable tn m2 top).bind (rewriteTables m [])
    cases processTable tn m2 top <;> rfl
  | cons tn2 ns2 ih =>
    intro hmem top
    have hne : tn ≠ tn2 := fun he => hmem (by rw [he]; exact List.mem_cons_self tn2 ns2)
    have htn : tn ∉ ns2 := fun hm => hmem (List.mem_cons_of_mem tn2 hm)
    have hc := processTable_comm tn2 tn m m2 top (fun he => hne he.symm)
    rw [rewriteTables_cons]
    cases hp : processTable tn2 m top with
    | none =>
      rw [hp] at hc
      cases hq : processTable tn m2 top with
      | none => rfl
      | some t1 =>
        rw [hq] at hc
        have hc2 : processTable tn2 m t1 = none := hc.symm
        show (none : Option (List (String × TomlVal))) = rewriteTables m (tn2 :: ns2) t1
        rw [rewriteTables_cons, hc2]
        rfl
    | some t2 =>
      rw [hp] at hc
      show (rewriteTables m ns2 t2).bind (processTable tn m2) =
        (processTable tn m2 top).bind (rewriteTables m (tn2 :: ns2))
      rw [ih htn t2]
      cases hq : processTable tn m2 top with
      | none =>
        rw [hq] at hc
        have hc2 : processTable tn m2 t2 = none := hc
        rw [hc2]
        rfl
      | some t1 =>
        rw [hq] at hc
        have hc2 : processTable tn m2 t2 = processTable tn2 m t1 := hc
        rw [hc2]
        show (processTable tn2 m t1).bind (rewriteTables m ns2) =
          rewriteTables m (tn2 :: ns2) t1
        rw [rewriteTables_cons]

theorem rewriteTables_seq (m1 m2 : List (String × PackagePath)) :
    ∀ ns : List String, ns.Nodup → ∀ top,
      rewriteTables (m1 ++ m2) ns top =
        (rewriteTables m1 ns top).bind (rewriteTables m2 ns) := by
  intro ns
  induction ns with
  | nil =>
    intro _ top
    rfl
  | cons tn ns2 ih =>
    intro hnd top
    have htn : tn ∉ ns2 := (List.nodup_cons.1 hnd).1
    have hnd2 : ns2.Nodup := (List.nodup_cons.1 hnd).2
    rw [rewriteTables_cons, processTable_seq]
    cases hp : processTable tn m1 top with
    | none =>
      rw [rewriteTables_cons, hp]
      rfl
    | some t1 =>
      rw [rewriteTables_cons, hp]
      show (processTable tn m2 t1).bind (rewriteTables (m1 ++ m2) ns2) =
        (rewriteTables m1 ns2 t1).bind (rewriteTables m2 (tn :: ns2))
      have hcomm := rewriteTables_comm m1 m2 tn ns2 htn t1
      cases hq : processTable tn m2 t1 with
      | none =>
        rw [hq] at hcomm
        cases hr : rewriteTables m1 ns2 t1 with
        | none => rfl
        | some t3 =>
          rw [hr] at hcomm
          have hc2 : processTable tn m2 t3 = none := hcomm
          show (none : Option (List (String × TomlVal))) = rewriteTables m2 (tn :: ns2) t3
          rw [rewriteTables_cons, hc2]
          rfl
      | some t2 =>
        rw [hq] at hcomm
        show rewriteTables (m1 ++ m2) ns2 t2 =
          (rewriteTables m1 ns2 t1).bind (rewriteTables m2 (tn :: ns2))
        rw [ih hnd2 t2]
        cases hr : rewriteTables m1 ns2 t1 with
        | none =>
          rw [hr] at hcomm
          have hc2 : rewriteTables m1 ns2 t2 = none := hcomm.symm
          rw [hc2]
          rfl
        | some t3 =>
          rw [hr] at hcomm
          have hc2 : processTable tn m2 t3 = rewriteTables m1 ns2 t2 := hcomm
          show (rewriteTables m1 ns2 t2).bind (rewriteTables m2 ns2) =
            rewriteTables m2 (tn :: ns2) t3
          rw [rewriteTables_cons, hc2]

theorem rewriteTables_keys (m : List (String × PackagePath)) :
    ∀ (ns : List String) (top u : List (String × TomlVal)),
      rewriteTables m ns top = some u → u.map Prod.fst = top.map Prod.fst := by
  intro ns
  induction ns with
  | nil =>
    intro top u h
    have h2 : some top = some u := h
    cases h2
    rfl
  | cons tn ns2 ih =>
    intro top u h
    rw [rewriteTables_cons] at h
    cases hp : processTable tn m top with
    | none =>
      rw [hp] at h
      cases h
    | some t1 =>
      rw [hp] at h
      have h2 : rewriteTables m ns2 t1 = some u := h
      rw [ih t1 u h2, processTable_keys tn m top t1 hp]

theorem rewriteTables_allAt (tn : String) (d : TomlVal) (m : List (String × PackagePath)) :
    ∀ (ns : List String), tn ∉ ns → ∀ (top u : List (String × TomlVal)),
      rewriteTables m ns top = some u → allAt tn d top → allAt tn d u := by
  intro ns
  induction ns with
  | nil =>
    intro _ top u h hall
    have h2 : some top = some u := h
    cases h2
    exact hall
  | cons tn2 ns2 ih =>
    intro hmem top u h hall
    have hne : tn2 ≠ tn := fun he => hmem (by rw [← he]; exact List.mem_cons_self tn2 ns2)
    have htn : tn ∉ ns2 := fun hm => hmem (List.mem_cons_of_mem tn2 hm)
    rw [rewriteTables_cons] at h
    cases hp : processTable tn2 m top with
    | none =>
      rw [hp] at h
      cases h
    | some t1 =>
      rw [hp] at h
      have h2 : rewriteTables m ns2 t1 = some u := h
      exact ih htn t1 u h2 (processTable_allAt tn tn2 d m top t1 hne hp hall)

theorem rewriteTables_idem (m : List (String × PackagePath)) :
    ∀ (ns : List String), ns.Nodup → ∀ (top u : List (String × TomlVal)),
      rewriteTables m ns top = some u → rewriteTables m ns u = some u := by
  intro ns
  induction ns with
  | nil =>
    intro _ top u h
    have h2 : some top = some u := h
    cases h2
    rfl
  | cons tn ns2 ih =>
    intro hnd top u h
    have htn : tn ∉ ns2 := (List.nodup_cons.1 hnd).1
    have hnd2 : ns2.Nodup := (List.nodup_cons.1 hnd).2
    rw [rewriteTables_cons] at h
    cases hp : processTable tn m top with
    | none =>
      rw [hp] at h
      cases h
    | some t1 =>
      rw [hp] at h
      have h2 : rewriteTables m ns2 t1 = some u := h
      have hrec := ih hnd2 t1 u h2
      rw [rewriteTables_cons]
      have hpt : processTable tn m u = some u := by
        cases hl : alookup tn top with
        | none =>
          rw [processTable_none tn m top hl] at hp
          cases hp
          have hk : u.map Prod.fst = top.map Prod.fst := rewriteTables_keys m ns2 top u h2
          have hnone : alookup tn u = none := by
            rw [alookup_eq_none_iff, hk]
            exact (alookup_eq_none_iff tn top).1 hl
          exact processTable_none tn m u hnone
        | some deps =>
          cases hr : rewriteDeps deps m with
          | none =>
            rw [processTable_abort tn m top deps hl hr] at hp
            cases hp
          | some d =>
            rw [processTable_set tn m top deps d hl hr] at hp
            cases hp
            have hall : allAt tn d u :=
              rewriteTables_allAt tn d m ns2 htn (aset tn d top) u h2 (allAt_aset tn d top)
            have hks : u.map Prod.fst = top.map Prod.fst := by
              rw [rewriteTables_keys m ns2 (aset tn d top) u h2, aset_keys]
            have hmem : tn ∈ top.map Prod.fst := by
              by_contra hno
              rw [← alookup_eq_none_iff] at hno
              rw [hno] at hl
              cases hl
            have hsome : (alookup tn u).isSome := by
              cases hu : alookup tn u with
              | none =>
                have hn2 := (alookup_eq_none_iff tn u).1 hu
                rw [hks] at hn2
                exact absurd hmem hn2
              | some _ => rfl
            have hlu : alookup tn u = some d := alookup_of_allAt tn d u hall hsome
            rw [processTable_set tn m u d d hlu (rewriteDeps_idem m deps d hr),
              aset_id_of_allAt tn d u hall]
      rw [hpt]
      exact hrec

theorem rewriteDoc_seq (d : TomlVal) (m1 m2 : List (String × PackagePath)) :
    rewriteDoc d (m1 ++ m2) = (rewriteDoc d m1).bind (fun d2 => rewriteDoc d2 m2) := by
  cases d with
  | table top =>
    show (rewriteTables (m1 ++ m2) depTables top).map TomlVal.table =
      ((rewriteTables m1 depTables top).map TomlVal.table).bind (fun d2 => rewriteDoc d2 m2)
    rw [rewriteTables_seq m1 m2 depTables (by decide) top]
    cases h1 : rewriteTables m1 depTables top <;> rfl
  | str s => rfl
  | other i => rfl

theorem rewriteDoc_idem (m : List (String × PackagePath)) (d e : TomlVal)
    (h : rewriteDoc d m = some e) : rewriteDoc e m = some e := by
  cases d with
  | table top =>
    have h2 : (rewriteTables m depTables top).map TomlVal.table = some e := h
    cases h1 : rewriteTables m depTables top with
    | none =>
      rw [h1] at h2
      cases h2
    | some u =>
      rw [h1, Option.map_some'] at h2
      cases h2
      show (rewriteTables m depTables u).map TomlVal.table = some (TomlVal.table u)
      rw [rewriteTables_idem m depTables (by decide) top u h1]
      rfl
  | str s =>
    have h2 : some (TomlVal.str s) = some e := h
    cases h2
    rfl
  | other i =>
    have h2 : some (TomlVal.other i) = some e := h
    cases h2
    rfl

theorem foldRw_join :
    ∀ (ms : List (List (String × PackagePath))) (d : TomlVal)
      (m : List (String × PackagePath)),
      foldRw d (m :: ms) = rewriteDoc d (m ++ ms.flatten) := by
  intro ms
  induction ms with
  | nil =>
    intro d m
    show (match rewriteDoc d m with
      | none => none
      | some d2 => foldRw d2 []) = rewriteDoc d (m ++ [])
    rw [List.append_nil]
    cases rewriteDoc d m <;> rfl
  | cons m2 ms2 ih =>
    intro d m
    show (match rewriteDoc d m with
      | none => none
      | some d2 => foldRw d2 (m2 :: ms2)) = rewriteDoc d (m ++ (m2 :: ms2).flatten)
    have hj : (m2 :: ms2).flatten = m2 ++ ms2.flatten := rfl
    rw [hj, rewriteDoc_seq]
    cases h1 : rewriteDoc d m with
    | none => rfl
    | some d2 =>
      show foldRw d2 (m2 :: ms2) = rewriteDoc d2 (m2 ++ ms2.flatten)
      exact ih d2 m2

theorem foldRw_idem (ms : List (List (String × PackagePath))) (d e : TomlVal)
    (h : foldRw d ms = some e) : foldRw e ms = some e := by
  cases ms with
  | nil =>
    have h2 : some d = some e := h
    cases h2
    rfl
  | cons m ms2 =>
    rw [foldRw_join ms2 d m] at h
    rw [foldRw_join ms2 e m]
    exact rewriteDoc_idem (m ++ ms2.flatten) d e h

theorem chainDoc_some :
    ∀ (steps : List (TomlVal × List (String × PackagePath))) (d : TomlVal),
      chainDoc (some d) steps = (foldRw d (steps.map Prod.snd)).map some := by
  intro steps
  induction steps with
  | nil =>
    intro d
    rfl
  | cons p rest ih =>
    intro d
    obtain ⟨s, m⟩ := p
    show (match rewriteDoc d m with
      | none => none
      | some d2 => chainDoc (some d2) rest) =
      (match rewriteDoc d m with
        | none => none
        | some d2 => foldRw d2 (rest.map Prod.snd)).map some
    cases rewriteDoc d m with
    | none => rfl
    | some d2 => exact ih d2

theorem chainDoc_isSome (steps : List (TomlVal × List (String × PackagePath)))
    (hne : steps ≠ []) (c0 : Option TomlVal) (r : Option TomlVal)
    (h : chainDoc c0 steps = some r) : r.isSome := by
  cases steps with
  | nil => exact absurd rfl hne
  | cons p rest =>
    obtain ⟨s, m⟩ := p
    have h2 : (match rewriteDoc (c0.getD s) m with
      | none => none
      | some d => chainDoc (some d) rest) = some r := h
    cases hr : rewriteDoc (c0.getD s) m with
    | none =>
      rw [hr] at h2
      cases h2
    | some d =>
      rw [hr] at h2
      have h3 : chainDoc (some d) rest = some r := h2
      rw [chainDoc_some] at h3
      cases hf : foldRw d (rest.map Prod.snd) with
      | none =>
        rw [hf] at h3
        cases h3
      | some v =>
        rw [hf] at h3
        have h4 : some (some v) = some r := h3
        cases h4
        rfl

theorem chainDoc_idem (steps : List (TomlVal × List (String × PackagePath)))
    (c0 c1 : Option TomlVal) (h : chainDoc c0 steps = some c1) :
    chainDoc c1 steps = some c1 := by
  cases steps with
  | nil =>
    have h2 : some c0 = some c1 := h
    cases h2
    rfl
  | cons p rest =>
    obtain ⟨s, m⟩ := p
    have h2 : (match rewriteDoc (c0.getD s) m with
      | none => none
      | some d => chainDoc (some d) rest) = some c1 := h
    cases hr : rewriteDoc (c0.getD s) m with
    | none =>
      rw [hr] at h2
      cases h2
    | some d1 =>
      rw [hr] at h2
      have h3 : chainDoc (some d1) rest = some c1 := h2
      rw [chainDoc_some] at h3
      cases hf : foldRw d1 (rest.map Prod.snd) with
      | none =>
        rw [hf] at h3
        cases h3
      | some v1 =>
        rw [hf] at h3
        have h4 : some (some v1) = some c1 := h3
        cases h4
        have hfull : foldRw (c0.getD s) (m :: rest.map Prod.snd) = some v1 := by
          show (match rewriteDoc (c0.getD s) m with
            | none => none
            | some d2 => foldRw d2 (rest.map Prod.snd)) = some v1
          rw [hr]
          exact hf
        have hidem := foldRw_idem (m :: rest.map Prod.snd) (c0.getD s) v1 hfull
        have hidem2 : (match rewriteDoc v1 m with
          | none => none
          | some d2 => foldRw d2 (rest.map Prod.snd)) = some v1 := hidem
        show (match rewriteDoc v1 m with
          | none => none
          | some d => chainDoc (some d) rest) = some (some v1)
        cases hr2 : rewriteDoc v1 m with
        | none =>
          rw [hr2] at hidem2
          cases hidem2
        | some d2 =>
          rw [hr2] at hidem2
          have hidem3 : foldRw d2 (rest.map Prod.snd) = some v1 := hidem2
          show chainDoc (some d2) rest = some (some v1)
          rw [chainDoc_some, hidem3]
          rfl

theorem applyEvent_root_eq (fs fs2 : FS) (m : List (String × PackagePath))
    (h : applyEvent fs (.rootRw m) = some fs2) :
    rewriteDoc fs.root m = some fs2.root ∧ fs2.copies = fs.copies := by
  have h2 : (match rewriteDoc fs.root m with
    | none => none
    | some doc2 => some { fs with root := doc2 }) = some fs2 := h
  cases hr : rewriteDoc fs.root m with
  | none =>
    rw [hr] at h2
    cases h2
  | some doc2 =>
    rw [hr] at h2
    have h3 : some ({ fs with root := doc2 } : FS) = some fs2 := h2
    cases h3
    exact ⟨rfl, rfl⟩

theorem applyEvent_mat_eq (fs fs2 : FS) (name : String) (src : TomlVal)
    (m : List (String × PackagePath))
    (h : applyEvent fs (.mat name src m) = some fs2) :
    ∃ doc2, rewriteDoc ((alookup name fs.copies).getD src) m = some doc2 ∧
      fs2.root = fs.root ∧
      alookup name fs2.copies = some doc2 ∧
      (∀ n, n ≠ name → alookup n fs2.copies = alookup n fs.copies) ∧
      fs2.copies.map Prod.fst = fs.copies.map Prod.fst ++
        (if (alookup name fs.copies).isSome then [] else [name]) := by
  cases hc : alookup name fs.copies with
  | some existing =>
    have hm : mirrorStep fs name src = (fs, existing) := by
      unfold mirrorStep
      rw [hc]
    have h2 : (match rewriteDoc (mirrorStep fs name src).2 m with
      | none => none
      | some doc' => some { (mirrorStep fs name src).1 with
          copies := aset name doc' (mirrorStep fs name src).1.copies }) = some fs2 := h
    rw [hm] at h2
    have h3 : (match rewriteDoc existing m with
      | none => none
      | some doc' => some { fs with copies := aset name doc' fs.copies }) = some fs2 := h2
    cases hr : rewriteDoc existing m with
    | none =>
      rw [hr] at h3
      cases h3
    | some doc2 =>
      rw [hr] at h3
      have h4 : some ({ fs with copies := aset name doc2 fs.copies } : FS) = some fs2 := h3
      cases h4
      refine ⟨doc2, ?_, rfl, ?_, ?_, ?_⟩
      · exact hr
      · simp [alookup_aset, hc]
      · intro n hn
        rw [alookup_aset, if_neg (fun he => hn he.symm)]
      · rw [aset_keys]
        simp
  | none =>
    have hm : mirrorStep fs name src =
        ({ fs with copies := fs.copies ++ [(name, src)] }, src) := by
      unfold mirrorStep
      rw [hc]
    have h2 : (match rewriteDoc (mirrorStep fs name src).2 m with
      | none => none
      | some doc' => some { (mirrorStep fs name src).1 with
          copies := aset name doc' (mirrorStep fs name src).1.copies }) = some fs2 := h
    rw [hm] at h2
    have h3 : (match rewriteDoc src m with
      | none => none
      | some doc' => some { fs with
          copies := aset name doc' (fs.copies ++ [(name, src)]) }) = some fs2 := h2
    cases hr : rewriteDoc src m with
    | none =>
      rw [hr] at h3
      cases h3
    | some doc2 =>
      rw [hr] at h3
      have h4 : some ({ fs with
        copies := aset name doc2 (fs.copies ++ [(name, src)]) } : FS) = some fs2 := h3
      cases h4
      refine ⟨doc2, ?_, rfl, ?_, ?_, ?_⟩
      · exact hr
      · simp [alookup_aset, alookup_append, hc, alookup]
      · intro n hn
        rw [alookup_aset, if_neg (fun he => hn he.symm), alookup_append]
        have hs : alookup n [(name, src)] = none := by
          rw [alookup_single, if_neg (fun he => hn he.symm)]
        rw [hs]
        cases alookup n fs.copies <;> rfl
      · rw [aset_keys, List.map_append]
        rfl

theorem applyEvent_mat_some (g : FS) (name : String) (src : TomlVal)
    (m : List (String × PackagePath)) (doc2 : TomlVal)
    (hr : rewriteDoc ((alookup name g.copies).getD src) m = some doc2) :
    ∃ g1, applyEvent g (.mat name src m) = some g1 ∧
      g1.root = g.root ∧
      alookup name g1.copies = some doc2 ∧
      (∀ n, n ≠ name → alookup n g1.copies = alookup n g.copies) := by
  cases hc : alookup name g.copies with
  | some existing =>
    rw [hc] at hr
    have hr2 : rewriteDoc existing m = some doc2 := hr
    refine ⟨{ g with copies := aset name doc2 g.copies }, ?_, rfl, ?_, ?_⟩
    · have hm : mirrorStep g name src = (g, existing) := by
        unfold mirrorStep
        rw [hc]
      have ha : applyEvent g (Event.mat name src m) =
          match rewriteDoc (mirrorStep g name src).2 m with
          | none => none
          | some doc' => some { (mirrorStep g name src).1 with
              copies := aset name doc' (mirrorStep g name src).1.copies } := rfl
      rw [ha, hm]
      show (match rewriteDoc existing m with
        | none => none
        | some doc' => some { g with copies := aset name doc' g.copies }) =
        some { g with copies := aset name doc2 g.copies }
      rw [hr2]
    · simp [alookup_aset, hc]
    · intro n hn
      rw [alookup_aset, if_neg (fun he => hn he.symm)]
  | none =>
    rw [hc] at hr
    have hr2 : rewriteDoc src m = some doc2 := hr
    refine ⟨{ g with copies := aset name doc2 (g.copies ++ [(name, src)]) }, ?_, rfl, ?_, ?_⟩
    · have hm : mirrorStep g name src =
          ({ g with copies := g.copies ++ [(name, src)] }, src) := by
        unfold mirrorStep
        rw [hc]
      have ha : applyEvent g (Event.mat name src m) =
          match rewriteDoc (mirrorStep g name src).2 m with
          | none => none
          | some doc' => some { (mirrorStep g name src).1 with
              copies := aset name doc' (mirrorStep g name src).1.copies } := rfl
      rw [ha, hm]
      show (match rewriteDoc src m with
        | none => none
        | some doc' => some { g with
            copies := aset name doc' (g.copies ++ [(name, src)]) }) =
        some { g with copies := aset name doc2 (g.copies ++ [(name, src)]) }
      rw [hr2]
    · simp [alookup_aset, alookup_append, hc, alookup]
    · intro n hn
      rw [alookup_aset, if_neg (fun he => hn he.symm), alookup_append]
      have hs : alookup n [(name, src)] = none := by
        rw [alookup_single, if_neg (fun he => hn he.symm)]
      rw [hs]
      cases alookup n g.copies <;> rfl

theorem matStepsFor_rootRw (n : String) (m : List (String × PackagePath))
    (es : List Event) : matStepsFor n (Event.rootRw m :: es) = matStepsFor n es := rfl

theorem matStepsFor_mat_self (n : String) (src : TomlVal)
    (m : List (String × PackagePath)) (es : List Event) :
    matStepsFor n (Event.mat n src m :: es) = (src, m) :: matStepsFor n es := by
  show (if n = n then (src, m) :: matStepsFor n es else matStepsFor n es) = _
  rw [if_pos rfl]

theorem matStepsFor_mat_ne (n n2 : String) (src : TomlVal)
    (m : List (String × PackagePath)) (es : List Event) (hne : n ≠ n2) :
    matStepsFor n (Event.mat n2 src m :: es) = matStepsFor n es := by
  show (if n2 = n then (src, m) :: matStepsFor n es else matStepsFor n es) = _
  rw [if_neg (fun he => hne he.symm)]

theorem applyEvents_lookup :
    ∀ (es : List Event) (fs fs2 : FS), applyEvents es fs = some fs2 →
      ∀ n, chainDoc (alookup n fs.copies) (matStepsFor n es) =
        some (alookup n fs2.copies) := by
  intro es
  induction es with
  | nil =>
    intro fs fs2 h n
    have h2 : some fs = some fs2 := h
    cases h2
    rfl
  | cons e es2 ih =>
    intro fs fs2 h n
    have h2 : (match applyEvent fs e with
      | none => none
      | some fs3 => applyEvents es2 fs3) = some fs2 := h
    cases ha : applyEvent fs e with
    | none =>
      rw [ha] at h2
      cases h2
    | some fs3 =>
      rw [ha] at h2
      have h3 : applyEvents es2 fs3 = some fs2 := h2
      cases e with
      | rootRw m =>
        obtain ⟨_, hcop⟩ := applyEvent_root_eq fs fs3 m ha
        rw [matStepsFor_rootRw, ← hcop]
        exact ih fs3 fs2 h3 n
      | mat name src m =>
        obtain ⟨doc2, hrw, _, hat, hother, _⟩ := applyEvent_mat_eq fs fs3 name src m ha
        by_cases hn : n = name
        · subst hn
          rw [matStepsFor_mat_self]
          show (match rewriteDoc ((alookup n fs.copies).getD src) m with
            | none => none
            | some d => chainDoc (some d) (matStepsFor n es2)) =
            some (alookup n fs2.copies)
          rw [hrw]
          show chainDoc (some doc2) (matStepsFor n es2) = some (alookup n fs2.copies)
          rw [← hat]
          exact ih fs3 fs2 h3 n
        · rw [matStepsFor_mat_ne n name src m es2 hn, ← hother n hn]
          exact ih fs3 fs2 h3 n

theorem applyEvents_root :
    ∀ (es : List Event) (fs fs2 : FS), applyEvents es fs = some fs2 →
      foldRw fs.root (rootMaps es) = some fs2.root := by
  intro es
  induction es with
  | nil =>
    intro fs fs2 h
    have h2 : some fs = some fs2 := h
    cases h2
    rfl
  | cons e es2 ih =>
    intro fs fs2 h
    have h2 : (match applyEvent fs e with
      | none => none
      | some fs3 => applyEvents es2 fs3) = some fs2 := h
    cases ha : applyEvent fs e with
    | none =>
      rw [ha] at h2
      cases h2
    | some fs3 =>
      rw [ha] at h2
      have h3 : applyEvents es2 fs3 = some fs2 := h2
      cases e with
      | mat name src m =>
        obtain ⟨doc2, _, hrt, _, _, _⟩ := applyEvent_mat_eq fs fs3 name src m ha
        show foldRw fs.root (rootMaps es2) = some fs2.root
        rw [← hrt]
        exact ih fs3 fs2 h3
      | rootRw m =>
        obtain ⟨hrw, _⟩ := applyEvent_root_eq fs fs3 m ha
        show (match rewriteDoc fs.root m with
          | none => none
          | some d2 => foldRw d2 (rootMaps es2)) = some fs2.root
        rw [hrw]
        show foldRw fs3.root (rootMaps es2) = some fs2.root
        exact ih fs3 fs2 h3

theorem applyEvent_wf (fs fs2 : FS) (e : Event) (h : applyEvent fs e = some fs2)
    (hwf : fsWf fs) : fsWf fs2 := by
  cases e with
  | rootRw m =>
    obtain ⟨_, hcop⟩ := applyEvent_root_eq fs fs2 m h
    show (fs2.copies.map Prod.fst).Nodup
    rw [hcop]
    exact hwf
  | mat name src m =>
    obtain ⟨doc2, _, _, _, _, hkeys⟩ := applyEvent_mat_eq fs fs2 name src m h
    show (fs2.copies.map Prod.fst).Nodup
    rw [hkeys]
    cases hc : alookup name fs.copies with
    | some v => simpa using hwf
    | none =>
      have hnin : name ∉ fs.copies.map Prod.fst := (alookup_eq_none_iff name fs.copies).1 hc
      simp only [Option.isSome_none, Bool.false_eq_true, if_false]
      rw [List.nodup_append]
      refine ⟨hwf, List.nodup_singleton name, ?_⟩
      intro a ha hb
      rw [List.mem_singleton] at hb
      rw [hb] at ha
      exact hnin ha

theorem applyEvents_wf :
    ∀ (es : List Event) (fs fs2 : FS), applyEvents es fs = some fs2 →
      fsWf fs → fsWf fs2 := by
  intro es
  induction es with
  | nil =>
    intro fs fs2 h hwf
    have h2 : some fs = some fs2 := h
    cases h2
    exact hwf
  | cons e es2 ih =>
    intro fs fs2 h hwf
    have h2 : (match applyEvent fs e with
      | none => none
      | some fs3 => applyEvents es2 fs3) = some fs2 := h
    cases ha : applyEvent fs e with
    | none =>
      rw [ha] at h2
      cases h2
    | some fs3 =>
      rw [ha] at h2
      exact ih fs3 fs2 h2 (applyEvent_wf fs fs3 e ha hwf)

theorem applyEvents_keys :
    ∀ (es : List Event) (fs fs2 : FS), applyEvents es fs = some fs2 →
      (∀ n src m, Event.mat n src m ∈ es → (alookup n fs.copies).isSome) →
      fs2.copies.map Prod.fst = fs.copies.map Prod.fst := by
  intro es
  induction es with
  | nil =>
    intro fs fs2 h _
    have h2 : some fs = some fs2 := h
    cases h2
    rfl
  | cons e es2 ih =>
    intro fs fs2 h hpres
    have h2 : (match applyEvent fs e with
      | none => none
      | some fs3 => applyEvents es2 fs3) = some fs2 := h
    cases ha : applyEvent fs e with
    | none =>
      rw [ha] at h2
      cases h2
    | some fs3 =>
      rw [ha] at h2
      have h3 : applyEvents es2 fs3 = some fs2 := h2
      cases e with
      | rootRw m =>
        obtain ⟨_, hcop⟩ := applyEvent_root_eq fs fs3 m ha
        have hih := ih fs3 fs2 h3 (fun n src m2 hm => by
          rw [hcop]
          exact hpres n src m2 (List.mem_cons_of_mem _ hm))
        rw [hih, hcop]
      | mat name src m =>
        have hsome : (alookup name fs.copies).isSome :=
          hpres name src m (List.mem_cons_self _ _)
        obtain ⟨doc2, _, _, hat, hother, hkeys⟩ := applyEvent_mat_eq fs fs3 name src m ha
        have hk3 : fs3.copies.map Prod.fst = fs.copies.map Prod.fst := by
          rw [hkeys, if_pos hsome, List.append_nil]
        have hih := ih fs3 fs2 h3 (fun n src2 m2 hm => by
          by_cases hn : n = name
          · rw [hn, hat]
            rfl
          · rw [hother n hn]
            exact hpres n src2 m2 (List.mem_cons_of_mem _ hm))
        rw [hih, hk3]

theorem matStepsFor_ne_nil (n : String) (src : TomlVal)
    (m : List (String × PackagePath)) :
    ∀ es : List Event, Event.mat n src m ∈ es → matStepsFor n es ≠ [] := by
  intro es
  induction es with
  | nil =>
    intro h
    exact absurd h (List.not_mem_nil _)
  | cons e es2 ih =>
    intro hm
    cases e with
    | rootRw m2 =>
      rw [matStepsFor_rootRw]
      rcases List.mem_cons.1 hm with heq | hm2
      · cases heq
      · exact ih hm2
    | mat n2 src2 m2 =>
      by_cases he : n2 = n
      · rw [he, matStepsFor_mat_self]
        exact List.cons_ne_nil _ _
      · rw [matStepsFor_mat_ne n n2 src2 m2 es2 (fun h2 => he h2.symm)]
        rcases List.mem_cons.1 hm with heq | hm2
        · injection heq with h1 h2 h3
          exact absurd h1.symm he
        · exact ih hm2

theorem assoc_ext {α : Type} :
    ∀ (l1 l2 : List (String × α)),
      l1.map Prod.fst = l2.map Prod.fst → (l1.map Prod.fst).Nodup →
      (∀ k, alookup k l1 = alookup k l2) → l1 = l2 := by
  intro l1
  induction l1 with
  | nil =>
    intro l2 hk _ _
    cases l2 with
    | nil => rfl
    | cons q r2 => cases hk
  | cons p rest ih =>
    intro l2 hk hnd hl
    cases l2 with
    | nil => cases hk
    | cons q rest2 =>
      obtain ⟨k1, v1⟩ := p
      obtain ⟨k2, v2⟩ := q
      simp only [List.map_cons] at hk
      injection hk with hk1 hk2
      subst hk1
      have hv : v1 = v2 := by
        have h0 := hl k1
        rw [alookup_cons, alookup_cons, if_pos rfl, if_pos rfl] at h0
        exact Option.some.inj h0
      subst hv
      have hnd1 : (k1 :: rest.map Prod.fst).Nodup := hnd
      have hnd2 := List.nodup_cons.1 hnd1
      congr 1
      refine ih rest2 hk2 hnd2.2 ?_
      intro k
      by_cases hkk : k = k1
      · subst hkk
        rw [(alookup_eq_none_iff k rest).2 hnd2.1,
          (alookup_eq_none_iff k rest2).2 (hk2 ▸ hnd2.1)]
      · have h0 := hl k
        rw [alookup_cons, alookup_cons,
          if_neg (fun he => hkk he.symm), if_neg (fun he => hkk he.symm)] at h0
        exact h0

theorem applyEvents_of_chains :
    ∀ (es : List Event) (g : FS),
      (∀ n, (chainDoc (alookup n g.copies) (matStepsFor n es)).isSome) →
      (foldRw g.root (rootMaps es)).isSome →
      ∃ g2, applyEvents es g = some g2 ∧
        (∀ n, some (alookup n g2.copies) = chainDoc (alookup n g.copies) (matStepsFor n es)) ∧
        some g2.root = foldRw g.root (rootMaps es) := by
  intro es
  induction es with
  | nil =>
    intro g _ _
    exact ⟨g, rfl, fun n => rfl, rfl⟩
  | cons e es2 ih =>
    intro g hchains hroot
    cases e with
    | rootRw m =>
      have hroot2 : (match rewriteDoc g.root m with
        | none => none
        | some d2 => foldRw d2 (rootMaps es2)).isSome := hroot
      cases hr : rewriteDoc g.root m with
      | none =>
        rw [hr] at hroot2
        simp at hroot2
      | some r =>
        rw [hr] at hroot2
        have hroot3 : (foldRw r (rootMaps es2)).isSome := hroot2
        have ha0 : applyEvent g (Event.rootRw m) =
            match rewriteDoc g.root m with
            | none => none
            | some doc' => some { g with root := doc' } := rfl
        have ha : applyEvent g (Event.rootRw m) = some { g with root := r } := by
          rw [ha0, hr]
        obtain ⟨g2, hrun, hlook, hrt⟩ := ih { g with root := r } (fun n => hchains n) hroot3
        refine ⟨g2, ?_, ?_, ?_⟩
        · show (match applyEvent g (Event.rootRw m) with
            | none => none
            | some g3 => applyEvents es2 g3) = some g2
          rw [ha]
          exact hrun
        · intro n
          exact hlook n
        · show some g2.root = (match rewriteDoc g.root m with
            | none => none
            | some d2 => foldRw d2 (rootMaps es2))
          rw [hr]
          exact hrt
    | mat name src m =>
      have hch : (chainDoc (alookup name g.copies)
          ((src, m) :: matStepsFor name es2)).isSome := by
        have h0 := hchains name
        rw [matStepsFor_mat_self] at h0
        exact h0
      have hch2 : (match rewriteDoc ((alookup name g.copies).getD src) m with
        | none => none
        | some d => chainDoc (some d) (matStepsFor name es2)).isSome := hch
      cases hr : rewriteDoc ((alookup name g.copies).getD src) m with
      | none =>
        rw [hr] at hch2
        simp at hch2
      | some doc2 =>
        rw [hr] at hch2
        have hch3 : (chainDoc (some doc2) (matStepsFor name es2)).isSome := hch2
        obtain ⟨g1, ha, hrt1, hat1, hoth1⟩ := applyEvent_mat_some g name src m doc2 hr
        have hchains2 : ∀ n, (chainDoc (alookup n g1.copies) (matStepsFor n es2)).isSome := by
          intro n
          by_cases hn : n = name
          · subst hn
            rw [hat1]
            exact hch3
          · rw [hoth1 n hn]
            have h0 := hchains n
            rw [matStepsFor_mat_ne n name src m es2 hn] at h0
            exact h0
        have hroot2 : (foldRw g1.root (rootMaps es2)).isSome := by
          rw [hrt1]
          exact hroot
        obtain ⟨g2, hrun, hlook, hrtf⟩ := ih g1 hchains2 hroot2
        refine ⟨g2, ?_, ?_, ?_⟩
        · show (match applyEvent g (Event.mat name src m) with
            | none => none
            | some g3 => applyEvents es2 g3) = some g2
          rw [ha]
          exact hrun
        · intro n
          by_cases hn : n = name
          · subst hn
            rw [matStepsFor_mat_self]
            show some (alookup n g2.copies) =
              (match rewriteDoc ((alookup n g.copies).getD src) m with
                | none => none
                | some d => chainDoc (some d) (matStepsFor n es2))
            rw [hr]
            show some (alookup n g2.copies) = chainDoc (some doc2) (matStepsFor n es2)
            rw [← hat1]
            exact hlook n
          · rw [matStepsFor_mat_ne n name src m es2 hn, ← hoth1 n hn]
            exact hlook n
        · show some g2.root = foldRw g.root (rootMaps es2)
          rw [← hrt1]
          exact hrtf

theorem applyEvents_pass2 (es : List Event) (fs0 fs1 : FS)
    (h1 : applyEvents es fs0 = some fs1) (hwf : fsWf fs0) :
    applyEvents es fs1 = some fs1 := by
  have hlook := applyEvents_lookup es fs0 fs1 h1
  have hroot := applyEvents_root es fs0 fs1 h1
  have hchains1 : ∀ n, chainDoc (alookup n fs1.copies) (matStepsFor n es) =
      some (alookup n fs1.copies) := by
    intro n
    exact chainDoc_idem (matStepsFor n es) (alookup n fs0.copies) (alookup n fs1.copies)
      (hlook n)
  have hroot1 : foldRw fs1.root (rootMaps es) = some fs1.root :=
    foldRw_idem (rootMaps es) fs0.root fs1.root hroot
  obtain ⟨fs3, hrun, hlook3, hroot3⟩ := applyEvents_of_chains es fs1
    (fun n => by rw [hchains1 n]; rfl)
    (by rw [hroot1]; rfl)
  have hwf1 : fsWf fs1 := applyEvents_wf es fs0 fs1 h1 hwf
  have hpres : ∀ n src m, Event.mat n src m ∈ es → (alookup n fs1.copies).isSome := by
    intro n src m hm
    have hne := matStepsFor_ne_nil n src m es hm
    exact chainDoc_isSome (matStepsFor n es) hne (alookup n fs0.copies)
      (alookup n fs1.copies) (hlook n)
  have hkeys : fs3.copies.map Prod.fst = fs1.copies.map Prod.fst :=
    applyEvents_keys es fs1 fs3 hrun hpres
  have hcop : fs3.copies = fs1.copies := by
    refine assoc_ext fs3.copies fs1.copies hkeys ?_ ?_
    · rw [hkeys]
      exact hwf1
    · intro k
      have h0 := hlook3 k
      rw [hchains1 k] at h0
      exact Option.some.inj h0
  have hrt : fs3.root = fs1.root := by
    have h0 := hroot3
    rw [hroot1] at h0
    exact Option.some.inj h0
  have hfs : fs3 = fs1 := by
    cases fs3 with
    | mk c3 r3 =>
      cases fs1 with
      | mk c1 r1 =>
        simp only at hcop hrt
        rw [hcop, hrt]
  rw [hfs] at hrun
  exact hrun

theorem step_classify (env : Env) (cache : List Nat) (stack : List Frame) :
    (stepEvent env cache stack = none ∧
      ((∀ fs, step env ⟨cache, stack, fs⟩ = .finished ⟨cache, stack, fs⟩) ∨
       (∃ i, ∀ fs, step env ⟨cache, stack, fs⟩ = .cycleExit i ⟨cache, stack, fs⟩) ∨
       (∃ c2 s2, ∀ fs, step env ⟨cache, stack, fs⟩ = .cont ⟨c2, s2, fs⟩))) ∨
    (∃ e c2 s2, stepEvent env cache stack = some e ∧
      ∀ fs, (applyEvent fs e = none →
          ∃ stb, step env ⟨cache, stack, fs⟩ = .badDepExit stb) ∧
        (∀ fs2, applyEvent fs e = some fs2 →
          step env ⟨cache, stack, fs⟩ = .cont ⟨c2, s2, fs2⟩)) := by
  cases stack with
  | nil =>
    left
    exact ⟨rfl, Or.inl (fun fs => step_nil env cache fs)⟩
  | cons entry rest =>
    obtain ⟨pkg, deps, upd⟩ := entry
    cases deps with
    | cons id ds =>
      left
      refine ⟨rfl, ?_⟩
      cases hrep : alookup (env.pkgs id).name env.replace with
      | some url =>
        right
        right
        exact ⟨cache, _, fun fs => step_rule env cache pkg id ds upd rest fs url hrep⟩
      | none =>
        by_cases hc : pkg ∈ cache
        · right
          right
          exact ⟨cache, propagate (env.pkgs pkg).name rest,
            fun fs => step_selfcache env cache pkg id ds upd rest fs hrep hc⟩
        · cases hall : (Frame.mk pkg ds upd :: rest).all (fun e => e.pkg != id) with
          | true =>
            right
            right
            exact ⟨cache, ⟨id, env.depsOf id, none⟩ :: ⟨pkg, ds, upd⟩ :: rest,
              fun fs => step_descend env cache pkg id ds upd rest fs hrep hc hall⟩
          | false =>
            right
            left
            exact ⟨id, fun fs => step_cycle env cache pkg id ds upd rest fs hrep hc hall⟩
    | nil =>
      by_cases hc : pkg ∈ cache
      · left
        have hev : stepEvent env cache (⟨pkg, [], upd⟩ :: rest) = none := by
          show popEvent env cache ⟨pkg, [], upd⟩ rest = none
          unfold popEvent
          rw [if_pos hc]
        refine ⟨hev, Or.inr (Or.inr
          ⟨cache, propagate (env.pkgs pkg).name rest, ?_⟩)⟩
        intro fs
        rw [step_pop, popFinalize_cached env ⟨cache, ⟨pkg, [], upd⟩ :: rest, fs⟩
          ⟨pkg, [], upd⟩ rest hc]
      · cases upd with
        | none =>
          left
          have hev : stepEvent env cache (⟨pkg, [], none⟩ :: rest) = none := by
            show popEvent env cache ⟨pkg, [], none⟩ rest = none
            unfold popEvent
            rw [if_neg hc]
          refine ⟨hev, Or.inr (Or.inr ⟨cache, rest, ?_⟩)⟩
          intro fs
          rw [step_pop, popFinalize_skip env ⟨cache, ⟨pkg, [], none⟩ :: rest, fs⟩
            ⟨pkg, [], none⟩ rest hc rfl]
        | some replaces =>
          right
          cases rest with
          | nil =>
            refine ⟨.rootRw replaces, pkg :: cache, [], ?_, ?_⟩
            · show popEvent env cache ⟨pkg, [], some replaces⟩ [] = some (.rootRw replaces)
              unfold popEvent
              rw [if_neg hc]
            · intro fs
              constructor
              · intro hae
                have h2 : (match rewriteDoc fs.root replaces with
                  | none => none
                  | some doc2 => some ({ fs with root := doc2 } : FS)) = none := hae
                cases hr : rewriteDoc fs.root replaces with
                | some doc2 =>
                  rw [hr] at h2
                  cases h2
                | none =>
                  refine ⟨⟨cache, [], fs⟩, ?_⟩
                  rw [step_pop, popFinalize_root_fail env
                    ⟨cache, [⟨pkg, [], some replaces⟩], fs⟩
                    ⟨pkg, [], some replaces⟩ replaces hc rfl hr]
              · intro fs2 hae
                obtain ⟨hrw, hcop⟩ := applyEvent_root_eq fs fs2 replaces hae
                rw [step_pop, popFinalize_root_ok env
                  ⟨cache, [⟨pkg, [], some replaces⟩], fs⟩
                  ⟨pkg, [], some replaces⟩ replaces fs2.root hc rfl hrw]
                have hfs2 : ({ fs with root := fs2.root } : FS) = fs2 := by
                  cases fs2 with
                  | mk c r =>
                    simp only at hcop
                    rw [hcop]
                rw [hfs2]
          | cons par rs =>
            refine ⟨.mat (env.pkgs pkg).name (env.pkgs pkg).manifest replaces,
              pkg :: cache, propagate (env.pkgs pkg).name (par :: rs), ?_, ?_⟩
            · show popEvent env cache ⟨pkg, [], some replaces⟩ (par :: rs) =
                some (.mat (env.pkgs pkg).name (env.pkgs pkg).manifest replaces)
              unfold popEvent
              rw [if_neg hc]
            · intro fs
              constructor
              · intro hae
                have h2 : (match rewriteDoc (mirrorStep fs (env.pkgs pkg).name
                    (env.pkgs pkg).manifest).2 replaces with
                  | none => none
                  | some doc' => some { (mirrorStep fs (env.pkgs pkg).name
                        (env.pkgs pkg).manifest).1 with
                      copies := aset (env.pkgs pkg).name doc'
                        (mirrorStep fs (env.pkgs pkg).name
                          (env.pkgs pkg).manifest).1.copies }) = none := hae
                cases hr : rewriteDoc (mirrorStep fs (env.pkgs pkg).name
                    (env.pkgs pkg).manifest).2 replaces with
                | some doc2 =>
                  rw [hr] at h2
                  cases h2
                | none =>
                  refine ⟨⟨cache, par :: rs, (mirrorStep fs (env.pkgs pkg).name
                    (env.pkgs pkg).manifest).1⟩, ?_⟩
                  rw [step_pop, popFinalize_mat_fail env
                    ⟨cache, ⟨pkg, [], some replaces⟩ :: par :: rs, fs⟩
                    ⟨pkg, [], some replaces⟩ par rs replaces hc rfl hr]
              · intro fs2 hae
                have h2 : (match rewriteDoc (mirrorStep fs (env.pkgs pkg).name
                    (env.pkgs pkg).manifest).2 replaces with
                  | none => none
                  | some doc' => some { (mirrorStep fs (env.pkgs pkg).name
                        (env.pkgs pkg).manifest).1 with
                      copies := aset (env.pkgs pkg).name doc'
                        (mirrorStep fs (env.pkgs pkg).name
                          (env.pkgs pkg).manifest).1.copies }) = some fs2 := hae
                cases hr : rewriteDoc (mirrorStep fs (env.pkgs pkg).name
                    (env.pkgs pkg).manifest).2 replaces with
                | none =>
                  rw [hr] at h2
                  cases h2
                | some doc2 =>
                  rw [hr] at h2
                  have h3 : some ({ (mirrorStep fs (env.pkgs pkg).name
                      (env.pkgs pkg).manifest).1 with
                    copies := aset (env.pkgs pkg).name doc2
                      (mirrorStep fs (env.pkgs pkg).name
                        (env.pkgs pkg).manifest).1.copies } : FS) = some fs2 := h2
                  cases h3
                  rw [step_pop, popFinalize_mat_ok env
                    ⟨cache, ⟨pkg, [], some replaces⟩ :: par :: rs, fs⟩
                    ⟨pkg, [], some replaces⟩ par rs replaces doc2 hc rfl hr]

theorem runE_events_apply (env : Env) :
    ∀ (fuel : Nat) (st s1 : WalkState) (evs : List Event),
      runE env fuel st = (.done s1, evs) → applyEvents evs st.fs = some s1.fs := by
  intro fuel
  induction fuel with
  | zero =>
    intro st s1 evs h
    have h2 : ((RunOut.outOfFuel st), ([] : List Event)) = (.done s1, evs) := h
    injection h2 with ha _
    cases ha
  | succ fuel ih =>
    intro st s1 evs h
    obtain ⟨cache, stack, fs⟩ := st
    rw [runE] at h
    cases hs : step env ⟨cache, stack, fs⟩ with
    | cycleExit i st2 =>
      rw [hs] at h
      have h3 : ((RunOut.cycle i st2), ([] : List Event)) = (.done s1, evs) := h
      injection h3 with ha _
      cases ha
    | badDepExit st2 =>
      rw [hs] at h
      have h3 : ((RunOut.badDep st2), ([] : List Event)) = (.done s1, evs) := h
      injection h3 with ha _
      cases ha
    | finished st2 =>
      rw [hs] at h
      have h3 : ((RunOut.done st2), ([] : List Event)) = (.done s1, evs) := h
      injection h3 with ha hb
      injection ha with hc
      obtain ⟨he, _⟩ := step_finished_eq env ⟨cache, stack, fs⟩ st2 hs
      rw [← hb]
      show some (⟨cache, stack, fs⟩ : WalkState).fs = some s1.fs
      rw [← hc, he]
    | cont st2 =>
      rw [hs] at h
      cases hev : stepEvent env cache stack with
      | none =>
        have h3 : (match stepEvent env cache stack with
          | none => runE env fuel st2
          | some ev => ((runE env fuel st2).1, ev :: (runE env fuel st2).2)) =
          (.done s1, evs) := h
        rw [hev] at h3
        have h4 : runE env fuel st2 = (.done s1, evs) := h3
        rcases step_classify env cache stack with ⟨_, hcl⟩ | ⟨e, c2, s2, hev2, _⟩
        · rcases hcl with hfin | ⟨i, hcyc⟩ | ⟨c2, s2, hcont⟩
          · rw [hfin fs] at hs
            cases hs
          · rw [hcyc fs] at hs
            cases hs
          · rw [hcont fs] at hs
            have hst2 : (⟨c2, s2, fs⟩ : WalkState) = st2 := StepRes.cont.inj hs
            have hih := ih st2 s1 evs h4
            rw [← hst2] at hih
            exact hih
        · rw [hev2] at hev
          cases hev
      | some ev =>
        have h3 : (match stepEvent env cache stack with
          | none => runE env fuel st2
          | some ev2 => ((runE env fuel st2).1, ev2 :: (runE env fuel st2).2)) =
          (.done s1, evs) := h
        rw [hev] at h3
        have h4 : ((runE env fuel st2).1, ev :: (runE env fuel st2).2) =
          (.done s1, evs) := h3
        injection h4 with ha hb
        rcases step_classify env cache stack with ⟨hev2, _⟩ | ⟨e, c2, s2, hev2, hfs⟩
        · rw [hev2] at hev
          cases hev
        · rw [hev2] at hev
          have he : e = ev := Option.some.inj hev
          subst he
          obtain ⟨hbad, hok⟩ := hfs fs
          cases hae : applyEvent fs e with
          | none =>
            obtain ⟨stb, hsb⟩ := hbad hae
            rw [hsb] at hs
            cases hs
          | some fs4 =>
            rw [hok fs4 hae] at hs
            have hst2 : (⟨c2, s2, fs4⟩ : WalkState) = st2 := StepRes.cont.inj hs
            subst hst2
            have hr2 : runE env fuel ⟨c2, s2, fs4⟩ =
                (.done s1, (runE env fuel ⟨c2, s2, fs4⟩).2) := by
              rw [← ha]
            have hih := ih ⟨c2, s2, fs4⟩ s1 ((runE env fuel ⟨c2, s2, fs4⟩).2) hr2
            rw [← hb]
            show (match applyEvent fs e with
              | none => none
              | some fs5 => applyEvents ((runE env fuel ⟨c2, s2, fs4⟩).2) fs5) =
              some s1.fs
            rw [hae]
            show applyEvents ((runE env fuel ⟨c2, s2, fs4⟩).2) fs4 = some s1.fs
            exact hih

theorem runE_sim (env : Env) :
    ∀ (fuel : Nat) (cache : List Nat) (stack : List Frame) (fsA2 : FS) (s1 : WalkState)
      (evs : List Event) (fsB fsB2 : FS),
      runE env fuel ⟨cache, stack, fsA2⟩ = (.done s1, evs) →
      applyEvents evs fsB = some fsB2 →
      runE env fuel ⟨cache, stack, fsB⟩ = (.done ⟨s1.cache, s1.stack, fsB2⟩, evs) := by
  intro fuel
  induction fuel with
  | zero =>
    intro cache stack fsA2 s1 evs fsB fsB2 h _
    have h2 : ((RunOut.outOfFuel ⟨cache, stack, fsA2⟩), ([] : List Event)) =
      (.done s1, evs) := h
    injection h2 with ha _
    cases ha
  | succ fuel ih =>
    intro cache stack fsA2 s1 evs fsB fsB2 h happ
    rw [runE] at h ⊢
    rcases step_classify env cache stack with ⟨hev, hcl⟩ | ⟨e, c2, s2, hev, hfs⟩
    · rcases hcl with hfin | ⟨i, hcyc⟩ | ⟨c2, s2, hcont⟩
      · rw [hfin fsA2] at h
        rw [hfin fsB]
        have h3 : ((RunOut.done (⟨cache, stack, fsA2⟩ : WalkState)), ([] : List Event)) =
          (.done s1, evs) := h
        injection h3 with ha hb
        injection ha with hc
        have hb2 : evs = [] := hb.symm
        subst hb2
        have happ2 : some fsB = some fsB2 := happ
        injection happ2 with hfb
        show ((RunOut.done (⟨cache, stack, fsB⟩ : WalkState)), ([] : List Event)) =
          (.done ⟨s1.cache, s1.stack, fsB2⟩, [])
        rw [← hc, ← hfb]
      · rw [hcyc fsA2] at h
        have h3 : ((RunOut.cycle i (⟨cache, stack, fsA2⟩ : WalkState)), ([] : List Event)) =
          (.done s1, evs) := h
        injection h3 with ha _
        cases ha
      · rw [hcont fsA2] at h
        rw [hcont fsB]
        have h3 : (match stepEvent env cache stack with
          | none => runE env fuel ⟨c2, s2, fsA2⟩
          | some ev => ((runE env fuel ⟨c2, s2, fsA2⟩).1,
              ev :: (runE env fuel ⟨c2, s2, fsA2⟩).2)) = (.done s1, evs) := h
        rw [hev] at h3
        have h4 : runE env fuel ⟨c2, s2, fsA2⟩ = (.done s1, evs) := h3
        show (match stepEvent env cache stack with
          | none => runE env fuel ⟨c2, s2, fsB⟩
          | some ev => ((runE env fuel ⟨c2, s2, fsB⟩).1,
              ev :: (runE env fuel ⟨c2, s2, fsB⟩).2)) =
          (.done ⟨s1.cache, s1.stack, fsB2⟩, evs)
        rw [hev]
        exact ih c2 s2 fsA2 s1 evs fsB fsB2 h4 happ
    · obtain ⟨hbadA, hokA⟩ := hfs fsA2
      obtain ⟨hbadB, hokB⟩ := hfs fsB
      cases haeA : applyEvent fsA2 e with
      | none =>
        obtain ⟨stb, hsb⟩ := hbadA haeA
        rw [hsb] at h
        have h3 : ((RunOut.badDep stb), ([] : List Event)) = (.done s1, evs) := h
        injection h3 with ha _
        cases ha
      | some fsA4 =>
        rw [hokA fsA4 haeA] at h
        have h3 : (match stepEvent env cache stack with
          | none => runE env fuel ⟨c2, s2, fsA4⟩
          | some ev => ((runE env fuel ⟨c2, s2, fsA4⟩).1,
              ev :: (runE env fuel ⟨c2, s2, fsA4⟩).2)) = (.done s1, evs) := h
        rw [hev] at h3
        have h4 : ((runE env fuel ⟨c2, s2, fsA4⟩).1,
            e :: (runE env fuel ⟨c2, s2, fsA4⟩).2) = (.done s1, evs) := h3
        injection h4 with ha hb
        rw [← hb] at happ
        have happ2 : (match applyEvent fsB e with
          | none => none
          | some fs5 => applyEvents ((runE env fuel ⟨c2, s2, fsA4⟩).2) fs5) =
          some fsB2 := happ
        cases haeB : applyEvent fsB e with
        | none =>
          rw [haeB] at happ2
          cases happ2
        | some fsB4 =>
          rw [haeB] at happ2
          have happ3 : applyEvents ((runE env fuel ⟨c2, s2, fsA4⟩).2) fsB4 =
            some fsB2 := happ2
          rw [hokB fsB4 haeB]
          show (match stepEvent env cache stack with
            | none => runE env fuel ⟨c2, s2, fsB4⟩
            | some ev => ((runE env fuel ⟨c2, s2, fsB4⟩).1,
                ev :: (runE env fuel ⟨c2, s2, fsB4⟩).2)) =
            (.done ⟨s1.cache, s1.stack, fsB2⟩, evs)
          rw [hev]
          have hr2 : runE env fuel ⟨c2, s2, fsA4⟩ =
              (.done s1, (runE env fuel ⟨c2, s2, fsA4⟩).2) := by
            rw [← ha]
          have hihr := ih c2 s2 fsA4 s1 ((runE env fuel ⟨c2, s2, fsA4⟩).2) fsB4 fsB2
            hr2 happ3
          rw [hihr, ← hb]

/-- C9: running the walk a second time on the filesystem produced by a
completed first run is idempotent: with unchanged environment (same
package set, dependency graph and rule map) and the same fuel, the
second run finishes with the identical final state and event trace, so
the on-disk state after the second run equals the state after the
first (copies are skipped because the working-directory entries
already exist, and re-rewriting an already rewritten manifest
reproduces it unchanged). -/
theorem c9_idempotent (env : Env) (fuel : Nat) (fs0 : FS) (s1 : WalkState)
    (evs : List Event)
    (h1 : runE env fuel (initState env fs0) = (.done s1, evs)) (hwf : fsWf fs0) :
    runE env fuel (initState env s1.fs) = (.done s1, evs) := by
  have hb1 : applyEvents evs fs0 = some s1.fs :=
    runE_events_apply env fuel (initState env fs0) s1 evs h1
  have hpass2 : applyEvents evs s1.fs = some s1.fs :=
    applyEvents_pass2 evs fs0 s1.fs hb1 hwf
  have hsim := runE_sim env fuel [] [⟨env.rootId, env.depsOf env.rootId, none⟩] fs0 s1 evs
    s1.fs s1.fs h1 hpass2
  show runE env fuel ⟨[], [⟨env.rootId, env.depsOf env.rootId, none⟩], s1.fs⟩ =
    (.done s1, evs)
  rw [hsim]

/-- Witness for the idempotence theorem at scenario S3: the first run
from the empty working directory finishes with state s1S3 and trace
evsS3, the initial filesystem is well formed, and the second run from
the produced filesystem finishes with the same state and trace. -/
theorem c9_idempotent_witness :
    runE envS3 20 (initState envS3 (fsA envS3)) = (.done s1S3, evsS3) ∧
    fsWf (fsA envS3) ∧
    runE envS3 20 (initState envS3 s1S3.fs) = (.done s1S3, evsS3) :=
  ⟨by decide, by show ((fsA envS3).copies.map Prod.fst).Nodup; decide,
    c9_idempotent envS3 20 (fsA envS3) s1S3 evsS3 (by decide)
      (by show ((fsA envS3).copies.map Prod.fst).Nodup; decide)⟩
